import Mathlib

/-!
# Verification of the Shifty tween engine (src/tweenable.js)

A shallow embedding of the tween scheduling and interpolation engine of the
shifty repository.  JavaScript numbers are modelled as rationals (ℚ); state
objects (flat key/value maps) are modelled as association lists in insertion
order; the mutable module-level registry (listHead / listTail plus the
per-tween next / previous pointers) is modelled as an explicit World record;
callback invocations (start, render, resolve, reject, filter hooks) are
recorded in an event log, newest first.  Tween identities are natural
numbers indexing into the World.

Conventions for JavaScript semantics used throughout:
* null-valued numeric fields are Option ℚ; where JS arithmetic coerces null
  to 0 (processTween, seek) we use Option.getD 0;
* JS truthiness tests on numbers (if (this._pausedAtTime), if (this._delay))
  are modelled as inequality with 0 on the Option payload;
* rational division by zero yields 0 in Lean where JS would produce
  Infinity/NaN; every theorem that divides keeps the divisor positive.
-/

namespace Shifty

/-- A JS number. -/
abbrev JsNum := ℚ

/-- An easing curve: normalized position to eased position. -/
abbrev Curve := JsNum → JsNum

/-- A flat JS state object, keys in insertion order. -/
abbrev StateMap := List (String × JsNum)

/-- Property read `m[k]`: the value stored at key `k`.  The engine only reads
keys that setConfig has materialized in all three state maps; a missing key
would be `undefined` (NaN arithmetic) in JS and is modelled as 0. -/
def sLookup (m : StateMap) (k : String) : JsNum :=
  ((m.find? (fun kv => kv.1 = k)).map (fun kv => kv.2)).getD 0

/-- Modelled from the spec: the easing-functions module imported by
tweenable.js is not under src/.  The spec fixes only the default curve: a
"linear" identifier naming the linear curve, which maps the normalized
position to itself (§4.2, §8: `original + (target-original) * (t/duration)`
for linear easing).  Other members of the curve library are out of scope. -/
def linear : Curve := fun x => x

/-- Modelled from the spec: the named-curve registry collaborator (`formulas`
in tweenable.js, seeded from the external easing library).  Only the default
"linear" entry is specified; unknown names resolve to no curve (in JS the
lookup yields `undefined` and later invocation throws). -/
def formulas (name : String) : Option Curve :=
  if name = "linear" then some linear else none

/-- One entry of a per-property easing object: a curve name (string) or a
curve function, as produced by composeEasingObject. -/
inductive EasingEntry where
  | name (s : String)
  | func (f : Curve)

/-- The resolved easing of a tween: composeEasingObject returns either a
single curve function (`easing && easing.call` is truthy in tweenProps) or a
per-property object. -/
inductive Easing where
  | single (f : Curve)
  | perKey (m : List (String × EasingEntry))

/-- tweenProps' per-key resolution: `easingObjectProp.call ? easingObjectProp
: formulas[easingObjectProp]`.  A missing key or unknown curve name makes JS
throw when the curve is invoked; modelled as the constant-0 curve. -/
def resolveEntry (m : List (String × EasingEntry)) (k : String) : Curve :=
  match (m.find? (fun kv => kv.1 = k)).map (fun kv => kv.2) with
  | some (EasingEntry.func f) => f
  | some (EasingEntry.name s) => (formulas s).getD (fun _ => 0)
  | none => fun _ => 0

/-- Embedding of `tweenProps` (tweenable.js lines 54-94).  Computes the
interpolated values of every property of `currentState` and returns the
updated map.  `normalizedPosition` is 0 when the probe position is earlier
than the timestamp, otherwise `(forPosition - timestamp) / duration`.  When
the easing is a single function it is evaluated once, before the loop over
the properties, and the eased position is reused for every key; otherwise
each key's own curve is resolved and evaluated. -/
def tweenProps (forPosition : JsNum) (currentState originalState targetState : StateMap)
    (duration timestamp : JsNum) (easing : Easing) : StateMap :=
  let normalizedPosition :=
    if forPosition < timestamp then 0 else (forPosition - timestamp) / duration
  match easing with
  | Easing.single f =>
      let easedPosition := f normalizedPosition
      currentState.map (fun kv =>
        let start := sLookup originalState kv.1
        (kv.1, start + (sLookup targetState kv.1 - start) * easedPosition))
  | Easing.perKey m =>
      currentState.map (fun kv =>
        let easingFn := resolveEntry m kv.1
        let easedPosition := easingFn normalizedPosition
        let start := sLookup originalState kv.1
        (kv.1, start + (sLookup targetState kv.1 - start) * easedPosition))

/-- One observable callback invocation.  `render i st off` is
`tween._render(st, tween._data, off)`; `resolve` / `reject` are the
completion continuations being invoked with the tween's current state;
`start` is the play-start callback; `filter i idx hook` records the hook
named `hook` of the filter stored at index `idx` of `tween._filters` being
invoked. -/
inductive Event where
  | start (i : Nat) (st : StateMap)
  | render (i : Nat) (st : StateMap) (offset : JsNum)
  | resolve (i : Nat) (st : StateMap)
  | reject (i : Nat) (st : StateMap)
  | filter (i : Nat) (idx : Nat) (hook : String)
  deriving DecidableEq

/-- A filter retained in `tween._filters`: a named set of optional hooks
(`tweenCreated`, `beforeTween`, `afterTween`, `afterTweenEnd`).  A hook
receives the tween and, per the filter-pipeline contract, may read and
rewrite its working state; we model a hook as a transformer of
`currentState`. -/
structure TweenFilter where
  hooks : String → Option (StateMap → StateMap)

/-- The per-instance fields of a Tweenable that the engine reads and writes
(constructor, lines 284-307, plus the fields setConfig initializes).  The
default field values describe a freshly constructed and configured instance:
`playing = false`, no registry links, `timestamp = null`, no pending
continuations, default duration 500 and delay 0, linear easing, no
applicable filters. -/
structure Tween where
  playing : Bool := false
  next : Option Nat := none
  prev : Option Nat := none
  pausedAt : Option JsNum := none
  timestamp : Option JsNum := none
  hasResolve : Bool := false
  hasReject : Bool := false
  delay : JsNum := 0
  duration : JsNum := 500
  currentState : StateMap := []
  originalState : StateMap := []
  targetState : StateMap := []
  easing : Easing := Easing.single linear
  filters : List TweenFilter := []

/-- The whole mutable state of the module: every Tweenable instance
(indexed by a Nat identity), the module-level registry pointers `listHead`
and `listTail`, and the log of callback invocations (newest first). -/
structure World where
  tweens : Nat → Tween
  head : Option Nat := none
  tail : Option Nat := none
  events : List Event := []

/-- The state of the module before any tween is started: empty registry,
every instance fresh. -/
def initWorld : World := { tweens := fun _ => {} }

/-- Overwrite the fields of tween `i`. -/
def updTween (w : World) (i : Nat) (t : Tween) : World :=
  { w with tweens := fun j => if j = i then t else w.tweens j }

/-- Record a callback invocation. -/
def pushEvent (w : World) (e : Event) : World :=
  { w with events := e :: w.events }

/-- Embedding of `Tweenable#_applyFilter` (lines 314-323), with the loop
counter made explicit: the JS loop runs `i` from `_filters.length` down to 1
and in each iteration reads `this._filters[i - i]`.  (Note `i - i`, i.e.
index 0, exactly as in the source.)  Each found hook is invoked on the
tween, modelled as rewriting `currentState` and logging a filter event with
the index that was accessed. -/
def applyFilterLoop (ti : Nat) (filterName : String) : Nat → World → World
  | 0, w => w
  | Nat.succ k, w =>
      let i := Nat.succ k
      -- const filterType = this._filters[i - i]
      match ((w.tweens ti).filters).get? (i - i) with
      | none => applyFilterLoop ti filterName k w
      | some filterType =>
          match filterType.hooks filterName with
          | none => applyFilterLoop ti filterName k w
          | some f =>
              let t := w.tweens ti
              let w1 := updTween w ti { t with currentState := f t.currentState }
              let w2 := pushEvent w1 (Event.filter ti (i - i) filterName)
              applyFilterLoop ti filterName k w2

/-- `tween._applyFilter(filterName)`: run the loop from `_filters.length`. -/
def applyFilterW (w : World) (ti : Nat) (filterName : String) : World :=
  applyFilterLoop ti filterName ((w.tweens ti).filters).length w

/-- Embedding of the module-level `remove` (lines 235-264): unlink a tween
from the doubly-linked registry in O(1), handling the head, tail, middle and
singleton cases, then null the removed tween's own links.  In the middle
case the source dereferences `tween._previous` and `tween._next`
unconditionally; when either is null JS would throw.  That situation is
unreachable while the registry invariant holds (remove is only called on
playing, hence linked, tweens), and the embedding leaves the links untouched
there. -/
def removeOp (w : World) (i : Nat) : World :=
  let t := w.tweens i
  let w1 :=
    if w.head = some i then
      let w2 := { w with head := t.next }
      match t.next with
      | some n => updTween w2 n { w2.tweens n with prev := none }
      | none => { w2 with tail := none }
    else if w.tail = some i then
      let w2 := { w with tail := t.prev }
      match t.prev with
      | some p => updTween w2 p { w2.tweens p with next := none }
      | none => { w2 with head := none }
    else
      match t.prev, t.next with
      | some p, some n =>
          let w2 := updTween w p { w.tweens p with next := t.next }
          updTween w2 n { w2.tweens n with prev := t.prev }
      | _, _ => w
  -- tween._previous = tween._next = null
  updTween w1 i { w1.tweens i with prev := none, next := none }

/-- Embedding of the registry insertion of `_resume` (lines 532-540): append
to the tail in O(1).  The source tests `listHead === null`; in the other
branch it dereferences `listTail`, which is non-null whenever `listHead` is
(unreachable otherwise under the registry invariant; the embedding returns
the world unchanged there). -/
def insertReg (w : World) (i : Nat) : World :=
  if w.head = none then { w with head := some i, tail := some i }
  else
    match w.tail with
    | some tl =>
        let w1 := updTween w i { w.tweens i with prev := w.tail }
        let w2 := updTween w1 tl { w1.tweens tl with next := some i }
        { w2 with tail := some i }
    | none => w

/-- Embedding of `Tweenable#stop(gotoEnd)` (lines 580-624).  No-op when not
playing.  Otherwise: mark not playing, remove from the registry; when
`gotoEnd`, run the beforeTween hooks, force the interpolator to position 1
with unit duration and zero timestamp (`tweenProps(1, ..., 1, 0, easing)`),
then the afterTween and afterTweenEnd hooks; finally invoke the pending
resolve continuation (if any) with the current state and clear both
continuations. -/
def stopOp (w : World) (i : Nat) (gotoEnd : Bool) : World :=
  let t := w.tweens i
  if t.playing = false then w
  else
    let w1 := updTween w i { t with playing := false }
    let w2 := removeOp w1 i
    let hasFilters := ((w2.tweens i).filters).length > 0
    let w3 :=
      if gotoEnd then
        let w3a := if hasFilters then applyFilterW w2 i "beforeTween" else w2
        let t3 := w3a.tweens i
        let w3b := updTween w3a i
          { t3 with currentState :=
              tweenProps 1 t3.currentState t3.originalState t3.targetState 1 0 t3.easing }
        let w3c := if hasFilters then applyFilterW w3b i "afterTween" else w3b
        if hasFilters then applyFilterW w3c i "afterTweenEnd" else w3c
      else w2
    let t4 := w3.tweens i
    let w4 := if t4.hasResolve then pushEvent w3 (Event.resolve i t4.currentState) else w3
    let t5 := w4.tweens i
    updTween w4 i { t5 with hasResolve := false, hasReject := false }

/-- Embedding of `Tweenable#cancel(gotoEnd)` (lines 635-654).  No-op when
not playing.  Otherwise: invoke the pending reject continuation (if any)
with the current state, clear both continuations, then perform
`stop(gotoEnd)` (which finds no resolve left to invoke). -/
def cancelOp (w : World) (i : Nat) (gotoEnd : Bool) : World :=
  let t := w.tweens i
  if t.playing = false then w
  else
    let w1 := if t.hasReject then pushEvent w (Event.reject i t.currentState) else w
    let w2 := updTween w1 i { w1.tweens i with hasResolve := false, hasReject := false }
    stopOp w2 i gotoEnd

/-- Embedding of `Tweenable#pause` (lines 495-505).  No-op when not playing;
otherwise record `pausedAtTime = now()`, mark not playing and remove from
the registry. -/
def pauseOp (w : World) (i : Nat) (tNow : JsNum) : World :=
  if (w.tweens i).playing = false then w
  else
    let w1 := updTween w i { w.tweens i with pausedAt := some tNow, playing := false }
    removeOp w1 i

/-- The body of `Tweenable#_resume` after the `timestamp === null` check
(lines 521-542).  If already playing, return (the existing promise).  If
`this._pausedAtTime` is truthy (non-null and nonzero), shift the timestamp
forward by the elapsed pause duration and clear `pausedAtTime`.  Mark
playing and append to the registry. -/
def resumeCore (w : World) (i : Nat) (currentTime : JsNum) : World :=
  let t := w.tweens i
  if t.playing then w
  else
    let t1 :=
      match t.pausedAt with
      | some p =>
          if p ≠ 0 then
            { t with timestamp := t.timestamp.map (fun ts => ts + (currentTime - p)),
                     pausedAt := none }
          else t
      | none => t
    let t2 := { t1 with playing := true }
    insertReg (updTween w i t2) i

/-- Embedding of `Tweenable#tween()` with no config argument (lines
334-352), on an already-configured instance (so `setConfig` is not
re-entered: `config || !this._config` is false).  If playing, stop first
(without goto-end).  Clear `pausedAtTime`, capture `timestamp = now()`,
invoke the start callback with a snapshot of the current state, render once
immediately when the delay is truthy (nonzero), then resume at the captured
timestamp. -/
def tweenOp (w : World) (i : Nat) (tNow : JsNum) : World :=
  let w1 := if (w.tweens i).playing then stopOp w i false else w
  let t1 := w1.tweens i
  let t2 := { t1 with pausedAt := none, timestamp := some tNow }
  let w2 := updTween w1 i t2
  -- this._start(this.get(), this._data)
  let w3 := pushEvent w2 (Event.start i t2.currentState)
  -- if (this._delay) this._render(this._currentState, this._data, 0)
  let w4 := if t2.delay ≠ 0 then pushEvent w3 (Event.render i t2.currentState 0) else w3
  resumeCore w4 i tNow

/-- Embedding of `Tweenable#_resume` (lines 516-543): a never-started tween
(`timestamp === null`) is (re)started via `tween()`; otherwise run the
resume body. -/
def resumeOp (w : World) (i : Nat) (tNow : JsNum) : World :=
  if (w.tweens i).timestamp = none then tweenOp w i tNow
  else resumeCore w i tNow

/-- Embedding of `processTween` (lines 96-147) for one tween at the current
time.  Before the delay has elapsed this is a no-op.  At or past
`timestamp + delay + duration` the render callback receives the target state
itself and the tween is stopped with goto-end.  Otherwise the interpolator
runs on the active window: the source substitutes unit values when
`timeToCompute` is still inside the delay window (dead code here, since the
first guard already ensures otherwise) and else shifts the timestamp forward
by the delay.  JS null-coercion: a null `_timestamp` reads as 0. -/
def processTweenW (w : World) (i : Nat) (currentTime : JsNum) : World :=
  let t := w.tweens i
  let timestamp := t.timestamp.getD 0
  if currentTime < timestamp + t.delay then w
  else
    let duration := t.duration
    let endTime := timestamp + t.delay + duration
    let timeToCompute := if currentTime > endTime then endTime else currentTime
    let hasEnded := timeToCompute ≥ endTime
    let offset := duration - (endTime - timeToCompute)
    let hasFilters := (t.filters).length > 0
    if hasEnded then
      let w1 := pushEvent w (Event.render i t.targetState offset)
      stopOp w1 i true
    else
      let w1 := if hasFilters then applyFilterW w i "beforeTween" else w
      let timestamp2 := if timeToCompute < timestamp + t.delay then (1 : JsNum)
                        else timestamp + t.delay
      let duration2 := if timeToCompute < timestamp + t.delay then (1 : JsNum) else duration
      let timeToCompute2 := if timeToCompute < timestamp + t.delay then (1 : JsNum)
                            else timeToCompute
      let t1 := w1.tweens i
      let w2 := updTween w1 i
        { t1 with currentState :=
            (tweenProps timeToCompute2 t1.currentState t1.originalState t1.targetState
              duration2 timestamp2 t1.easing) }
      let w3 := if hasFilters then applyFilterW w2 i "afterTween" else w2
      pushEvent w3 (Event.render i ((w3.tweens i).currentState) offset)

/-- Embedding of `Tweenable#seek` (lines 554-568): clamp the requested
millisecond to non-negative; when `this._timestamp + millisecond` is 0 (with
a null timestamp coercing to 0) return unchanged; otherwise set
`timestamp = now() - millisecond` and force one processTween pass so render
handlers run synchronously. -/
def seekOp (w : World) (i : Nat) (millisecond currentTime : JsNum) : World :=
  let ms := max millisecond 0
  if (w.tweens i).timestamp.getD 0 + ms = 0 then w
  else
    let w1 := updTween w i { w.tweens i with timestamp := some (currentTime - ms) }
    processTweenW w1 i currentTime

/-- One lifecycle call on one tween, with the clock reading that
`Tweenable.now()` returns during the call (stop and cancel do not read the
clock). -/
inductive Op where
  | play (i : Nat) (tNow : JsNum)
  | pause (i : Nat) (tNow : JsNum)
  | resume (i : Nat) (tNow : JsNum)
  | stop (i : Nat) (gotoEnd : Bool)
  | cancel (i : Nat) (gotoEnd : Bool)

/-- Run one lifecycle call. -/
def applyOp (w : World) : Op → World
  | Op.play i tNow => tweenOp w i tNow
  | Op.pause i tNow => pauseOp w i tNow
  | Op.resume i tNow => resumeOp w i tNow
  | Op.stop i g => stopOp w i g
  | Op.cancel i g => cancelOp w i g

/-- Run a sequence of lifecycle calls, left to right. -/
def applyOps (w : World) : List Op → World
  | [] => w
  | o :: ops => applyOps (applyOp w o) ops

/-- A filter with every hook present and leaving the working state
unchanged; used to probe the order in which `_applyFilter` invokes hooks. -/
def idFilter : TweenFilter := { hooks := fun _ => some (fun st => st) }

/-- A world whose tween 0 retains two applicable filters. -/
def twoFilterWorld : World :=
  { tweens := fun _ => { filters := [idFilter, idFilter] } }

/-- A world whose every tween is playing (registered as the single entry 0)
with both completion continuations pending. -/
def c1World : World :=
  { tweens := fun _ =>
      { playing := true, timestamp := some 0, hasResolve := true, hasReject := true },
    head := some 0, tail := some 0 }

/-- The spec's delay scenario: a registered tween with `delay = 50`,
`duration = 100`, from `{x: 0}` to `{x: 10}`, started at clock 0, linear
easing, no filters. -/
def c7World : World :=
  { tweens := fun _ =>
      { playing := true, timestamp := some 0, delay := 50, duration := 100,
        currentState := [("x", 0)], originalState := [("x", 0)],
        targetState := [("x", 10)] },
    head := some 0, tail := some 0 }

/-- The spec's completion scenario: a registered tween from `{x: 0}` to
`{x: 100}` over duration 100, no delay, started at clock 0, with a pending
resolve continuation. -/
def c3World : World :=
  { tweens := fun _ =>
      { playing := true, timestamp := some 0, duration := 100, hasResolve := true,
        currentState := [("x", 0)], originalState := [("x", 0)],
        targetState := [("x", 100)] },
    head := some 0, tail := some 0 }

/-- A tween that was started at clock -20 and paused at clock 0 (elapsed
20): exactly the state `pause()` leaves behind when the clock reads 0. -/
def c6World : World :=
  { tweens := fun _ => { playing := false, timestamp := some (-20), pausedAt := some 0 } }

/-- A tween that was started at clock 10 and paused at clock 30 (elapsed
20). -/
def c6PausedAt30 : World :=
  { tweens := fun _ => { playing := false, timestamp := some 10, pausedAt := some 30 } }

/-- A tween that was started (timestamp 100) and is seekable: duration 100,
no delay, from `{x: 0}` to `{x: 10}`. -/
def c9World : World :=
  { tweens := fun _ =>
      { timestamp := some 100, duration := 100,
        currentState := [("x", 0)], originalState := [("x", 0)],
        targetState := [("x", 10)] } }

/-! ## Specification-side predicates and observation functions -/

/-- Does an op call stop or cancel on tween `i`? -/
def Op.isStopCancelOf (o : Op) (i : Nat) : Bool :=
  match o with
  | Op.stop j _ => j = i
  | Op.cancel j _ => j = i
  | _ => false

/-- Is this event a completion-continuation invocation (resolve or reject)
for tween `i`? -/
def Event.isCompletionOf (e : Event) (i : Nat) : Bool :=
  match e with
  | Event.resolve j _ => j = i
  | Event.reject j _ => j = i
  | _ => false

/-- How many completion-continuation invocations for tween `i` a list of
events holds. -/
def completionCount (es : List Event) (i : Nat) : Nat :=
  es.countP (fun e => e.isCompletionOf i)

/-- `w'` differs from `w` at most in tween `i`'s `currentState` and in
appended non-completion events: every other tween field, the registry
pointers and the previously logged events agree.  This is the net effect of
the interpolation/filter stages of stop and processTween. -/
def StateOnlyExt (w w' : World) (i : Nat) : Prop :=
  (∃ st, w'.tweens =
    (fun j => if j = i then { w.tweens i with currentState := st } else w.tweens j)) ∧
  (∃ new, w'.events = new ++ w.events ∧ ∀ e ∈ new, ∀ k, e.isCompletionOf k = false) ∧
  w'.head = w.head ∧ w'.tail = w.tail

/-- The head of `l`, or the default pointer if `l` is empty. -/
def headOr (l : List Nat) (d : Option Nat) : Option Nat :=
  match l with
  | [] => d
  | i :: _ => some i

/-- The last element of `l`, or the default pointer if `l` is empty. -/
def lastOr (l : List Nat) (d : Option Nat) : Option Nat :=
  match l with
  | [] => d
  | i :: rest => lastOr rest (some i)

/-- The tweens listed in `l` form a doubly-linked segment of the registry:
the first one's `prev` is `pr`, each one's `next` points to its successor in
`l`, and the last one's `next` is `nx`. -/
def seg (w : World) (pr : Option Nat) (l : List Nat) (nx : Option Nat) : Prop :=
  match l with
  | [] => True
  | i :: rest =>
      (w.tweens i).prev = pr ∧ (w.tweens i).next = headOr rest nx ∧ seg w (some i) rest nx

/-- The registry of `w` is exactly the doubly-linked list `l`: `l` is a
duplicate-free chain from `listHead` to `listTail`, and every tween outside
it has null links. -/
def listOk (w : World) (l : List Nat) : Prop :=
  seg w none l none ∧ w.head = headOr l none ∧ w.tail = lastOr l none ∧
    l.Nodup ∧ ∀ j, j ∉ l → (w.tweens j).prev = none ∧ (w.tweens j).next = none

/-- The registry invariant: some duplicate-free list of at most `n` tweens
is the registry, and it holds exactly the playing tweens. -/
def InvN (w : World) (n : Nat) : Prop :=
  ∃ l : List Nat, listOk w l ∧ (∀ j, j ∈ l ↔ (w.tweens j).playing = true) ∧ l.length ≤ n

/-- Two worlds agree on all registry pointers. -/
def linkEq (w w' : World) : Prop :=
  w'.head = w.head ∧ w'.tail = w.tail ∧
    ∀ j, (w'.tweens j).prev = (w.tweens j).prev ∧ (w'.tweens j).next = (w.tweens j).next

/-- Two worlds agree on all registry pointers and playing flags. -/
def regEq (w w' : World) : Prop :=
  linkEq w w' ∧ ∀ j, (w'.tweens j).playing = (w.tweens j).playing

/-- Forward traversal: follow `next` pointers from a starting node, with
fuel bounding the number of steps. -/
def nextRefs (w : World) : Nat → Option Nat → List Nat
  | 0, _ => []
  | _ + 1, none => []
  | fuel + 1, some i => i :: nextRefs w fuel (w.tweens i).next

/-- Backward traversal: follow `prev` pointers from a starting node. -/
def prevRefs (w : World) : Nat → Option Nat → List Nat
  | 0, _ => []
  | _ + 1, none => []
  | fuel + 1, some i => i :: prevRefs w fuel (w.tweens i).prev

/-! ## A heap model for `Tweenable#get`

`get()` returns `{ ...this._currentState }`: a freshly allocated object
holding a shallow copy of the current state.  To state the aliasing
guarantee (mutating the returned object never changes the tween's internal
state) we model the JS object heap explicitly: references are naturals, the
heap maps every allocated reference to a state object, and allocation hands
out the next unused reference. -/

/-- The JS object heap: `objs r` is the state object stored at reference
`r`; references below `nextRef` are allocated. -/
structure Heap where
  objs : Nat → StateMap
  nextRef : Nat

/-- Allocate a fresh object holding `v`; returns the new heap and the new
reference. -/
def allocObj (h : Heap) (v : StateMap) : Heap × Nat :=
  ({ objs := fun r => if r = h.nextRef then v else h.objs r,
     nextRef := h.nextRef + 1 }, h.nextRef)

/-- Mutate the object stored at reference `r` (e.g. a caller writing a
property of an object it was handed). -/
def writeObj (h : Heap) (r : Nat) (v : StateMap) : Heap :=
  { h with objs := fun s => if s = r then v else h.objs s }

/-- A Tweenable as seen by the heap model: `_currentState` is a reference
into the heap. -/
structure TweenRef where
  curRef : Nat

/-- Embedding of `Tweenable#get` (lines 476-478): `return
{ ...this._currentState }` — allocate a fresh object whose contents are a
shallow copy of the current state, and hand back its reference.  The tween
itself is untouched. -/
def getOp (h : Heap) (t : TweenRef) : Heap × Nat :=
  allocObj h (h.objs t.curRef)

/-- A one-object heap: the tween's current state `{x: 1}` lives at
reference 0, and reference 1 is the next free one. -/
def c10Heap : Heap := { objs := fun _ => [("x", 1)], nextRef := 1 }

/-- A tween whose `_currentState` is the object at reference 0. -/
def c10Tween : TweenRef := { curRef := 0 }

/-! ## Helper lemmas -/

@[simp] theorem tweens_updTween_self (w : World) (i : Nat) (t : Tween) :
    (updTween w i t).tweens i = t := by
  simp [updTween]

theorem tweens_updTween_ne (w : World) (i j : Nat) (t : Tween) (h : j ≠ i) :
    (updTween w i t).tweens j = w.tweens j := by
  simp [updTween, h]

@[simp] theorem head_updTween (w : World) (i : Nat) (t : Tween) :
    (updTween w i t).head = w.head := rfl

@[simp] theorem tail_updTween (w : World) (i : Nat) (t : Tween) :
    (updTween w i t).tail = w.tail := rfl

@[simp] theorem events_updTween (w : World) (i : Nat) (t : Tween) :
    (updTween w i t).events = w.events := rfl

@[simp] theorem tweens_pushEvent (w : World) (e : Event) :
    (pushEvent w e).tweens = w.tweens := rfl

@[simp] theorem head_pushEvent (w : World) (e : Event) :
    (pushEvent w e).head = w.head := rfl

@[simp] theorem tail_pushEvent (w : World) (e : Event) :
    (pushEvent w e).tail = w.tail := rfl

@[simp] theorem events_pushEvent (w : World) (e : Event) :
    (pushEvent w e).events = e :: w.events := rfl

theorem sLookup_map_key (m : StateMap) (g : String → JsNum) (k : String)
    (hk : k ∈ m.map Prod.fst) :
    sLookup (m.map (fun kv => (kv.1, g kv.1))) k = g k := by
  induction m with
  | nil => simp at hk
  | cons kv rest ih =>
      by_cases h : kv.1 = k
      · simp [sLookup, List.find?, h]
      · have hk' : k ∈ rest.map Prod.fst := by
          simp only [List.map_cons, List.mem_cons] at hk
          exact hk.resolve_left (fun hh => h hh.symm)
        simpa [sLookup, List.find?, h] using ih hk'

/-! ## C2: linear interpolation formula and single-easing reuse -/

/-- C2: with a single easing function the interpolator evaluates it once on
the normalized position — clamped to 0 when the probe position is earlier
than the timestamp, otherwise `(forPosition - timestamp) / duration` — and
reuses the eased value for every property (second conjunct: every key of the
result is built from the same `f normalizedPosition`); with the linear curve
every property `k` ends up at
`originalState[k] + (targetState[k] - originalState[k]) * normalizedPosition`
(first conjunct). -/
theorem tweenProps_linear_formula (forPosition timestamp duration : JsNum)
    (cur orig tgt : StateMap) (hdur : 0 < duration) :
    (∀ k ∈ cur.map Prod.fst,
      sLookup (tweenProps forPosition cur orig tgt duration timestamp (Easing.single linear)) k =
        sLookup orig k + (sLookup tgt k - sLookup orig k) *
          (if forPosition < timestamp then 0 else (forPosition - timestamp) / duration)) ∧
    (∀ f : Curve,
      tweenProps forPosition cur orig tgt duration timestamp (Easing.single f) =
        cur.map (fun kv => (kv.1, sLookup orig kv.1 + (sLookup tgt kv.1 - sLookup orig kv.1) *
          f (if forPosition < timestamp then 0 else (forPosition - timestamp) / duration)))) := by
  constructor
  · intro k hk
    have := sLookup_map_key cur
      (fun k => sLookup orig k + (sLookup tgt k - sLookup orig k) *
        (if forPosition < timestamp then 0 else (forPosition - timestamp) / duration)) k hk
    simpa [tweenProps, linear] using this
  · intro f
    rfl

/-- Witness for C2 on the spec's concrete scenario: a tween from
`{x: 0}` to `{x: 100}` over duration 100 probed at position 50 with linear
easing yields `x = 50`. -/
theorem tweenProps_linear_formula_witness :
    sLookup (tweenProps 50 [("x", 0)] [("x", 0)] [("x", 100)] 100 0
      (Easing.single linear)) "x" = 50 := by
  have h := (tweenProps_linear_formula 50 0 100 [("x", 0)] [("x", 0)] [("x", 100)]
    (by norm_num)).1 "x" (by simp)
  rw [h]
  norm_num [sLookup, List.find?]

/-! ## C5: filter pipeline invocation order -/

/-- C5: evaluating `_applyFilter` on a tween that retains two filters (both
with a `beforeTween` hook).  The loop runs twice, but each iteration indexes
`this._filters[i - i]`, i.e. index 0: the first-registered filter's hook is
invoked twice and the second-registered filter's hook is never invoked —
not the documented reverse-registration order with each retained hook
invoked exactly once (the source's `i - i` is a slip for `i - 1`). -/
theorem applyFilter_two_filters_eval :
    (applyFilterW twoFilterWorld 0 "beforeTween").events =
      [Event.filter 0 0 "beforeTween", Event.filter 0 0 "beforeTween"] ∧
    ∀ e ∈ (applyFilterW twoFilterWorld 0 "beforeTween").events,
      e ≠ Event.filter 0 1 "beforeTween" := by
  constructor
  · rfl
  · intro e he
    rw [show (applyFilterW twoFilterWorld 0 "beforeTween").events =
      [Event.filter 0 0 "beforeTween", Event.filter 0 0 "beforeTween"] from rfl] at he
    have h : e = Event.filter 0 0 "beforeTween" := by simpa using he
    subst h
    decide

/-! ## Shape lemmas for the world operations -/

@[simp] theorem tweens_updTween (w : World) (i : Nat) (t : Tween) (j : Nat) :
    (updTween w i t).tweens j = if j = i then t else w.tweens j := rfl

/-- `remove` only rewrites registry links: every tween keeps all its other
fields. -/
theorem removeOp_tweens_links (w : World) (k j : Nat) :
    ∃ pr nx, (removeOp w k).tweens j = { w.tweens j with prev := pr, next := nx } := by
  simp only [removeOp, tweens_updTween]
  repeat' split
  all_goals try simp only [tweens_updTween]
  all_goals try (split_ifs <;> try subst_vars)
  all_goals try subst_vars
  all_goals exact ⟨_, _, rfl⟩

theorem removeOp_events (w : World) (k : Nat) : (removeOp w k).events = w.events := by
  simp only [removeOp]
  repeat' split
  all_goals rfl

theorem playing_removeOp (w : World) (k j : Nat) :
    ((removeOp w k).tweens j).playing = (w.tweens j).playing := by
  obtain ⟨pr, nx, h⟩ := removeOp_tweens_links w k j
  rw [h]

/-- `_applyFilter` only rewrites the target tween's `currentState` and
appends filter events: all other fields, the registry pointers and the
previously logged events are untouched, and none of the appended events is a
completion. -/
theorem applyFilterLoop_shape (ti : Nat) (nm : String) :
    ∀ (n : Nat) (w : World), ∃ st new,
      (applyFilterLoop ti nm n w).tweens =
        (fun j => if j = ti then { w.tweens ti with currentState := st } else w.tweens j) ∧
      (applyFilterLoop ti nm n w).events = new ++ w.events ∧
      (applyFilterLoop ti nm n w).head = w.head ∧
      (applyFilterLoop ti nm n w).tail = w.tail ∧
      ∀ e ∈ new, ∀ i, e.isCompletionOf i = false := by
  intro n
  induction n with
  | zero =>
      intro w
      refine ⟨(w.tweens ti).currentState, [], ?_, rfl, rfl, rfl, by simp⟩
      funext j
      by_cases h : j = ti <;> simp [applyFilterLoop, h]
  | succ k ih =>
      intro w
      cases hg : ((w.tweens ti).filters).get? (Nat.succ k - Nat.succ k) with
      | none =>
          simp only [applyFilterLoop, hg]
          exact ih w
      | some ft =>
          cases hh : ft.hooks nm with
          | none =>
              simp only [applyFilterLoop, hg, hh]
              exact ih w
          | some f =>
              simp only [applyFilterLoop, hg, hh]
              obtain ⟨st, new, h1, h2, h3, h4, h5⟩ := ih
                (pushEvent (updTween w ti
                  { w.tweens ti with currentState := f (w.tweens ti).currentState })
                  (Event.filter ti (Nat.succ k - Nat.succ k) nm))
              refine ⟨st, new ++ [Event.filter ti (Nat.succ k - Nat.succ k) nm], ?_, ?_, ?_, ?_, ?_⟩
              · rw [h1]
                funext j
                by_cases h : j = ti <;> simp [h]
              · rw [h2]; simp
              · rw [h3]; simp
              · rw [h4]; simp
              · intro e he i
                rcases List.mem_append.mp he with h | h
                · exact h5 e h i
                · have : e = Event.filter ti (Nat.succ k - Nat.succ k) nm := by simpa using h
                  subst this
                  rfl

theorem playing_applyFilterW (w : World) (ti : Nat) (nm : String) (j : Nat) :
    ((applyFilterW w ti nm).tweens j).playing = (w.tweens j).playing := by
  obtain ⟨st, new, h1, -, -, -, -⟩ :=
    applyFilterLoop_shape ti nm ((w.tweens ti).filters).length w
  rw [applyFilterW, h1]
  by_cases h : j = ti <;> simp [h]

/-- stop on a tween that is not playing is the identity. -/
theorem stopOp_not_playing (w : World) (i : Nat) (g : Bool)
    (h : (w.tweens i).playing = false) : stopOp w i g = w := by
  simp [stopOp, h]

/-- pause on a tween that is not playing is the identity. -/
theorem pauseOp_not_playing (w : World) (i : Nat) (tNow : JsNum)
    (h : (w.tweens i).playing = false) : pauseOp w i tNow = w := by
  simp [pauseOp, h]

/-- cancel on a tween that is not playing is the identity. -/
theorem cancelOp_not_playing (w : World) (i : Nat) (g : Bool)
    (h : (w.tweens i).playing = false) : cancelOp w i g = w := by
  simp [cancelOp, h]

/-- After stop on a playing tween, the tween is not playing. -/
theorem playing_stopOp_of_playing (w : World) (i : Nat) (g : Bool)
    (hp : (w.tweens i).playing = true) :
    ((stopOp w i g).tweens i).playing = false := by
  have h : ¬((w.tweens i).playing = false) := by simp [hp]
  simp only [stopOp]
  rw [if_neg h]
  split_ifs <;> simp_all [playing_applyFilterW, playing_removeOp]

/-- stop leaves both completion continuations cleared (when it acts at
all). -/
theorem clears_stopOp_of_playing (w : World) (i : Nat) (g : Bool)
    (hp : (w.tweens i).playing = true) :
    ((stopOp w i g).tweens i).hasResolve = false ∧
      ((stopOp w i g).tweens i).hasReject = false := by
  have h : ¬((w.tweens i).playing = false) := by simp [hp]
  simp only [stopOp]
  rw [if_neg h]
  simp

/-- After pause on a playing tween, the tween is not playing. -/
theorem playing_pauseOp_of_playing (w : World) (i : Nat) (tNow : JsNum)
    (hp : (w.tweens i).playing = true) :
    ((pauseOp w i tNow).tweens i).playing = false := by
  have h : ¬((w.tweens i).playing = false) := by simp [hp]
  simp only [pauseOp]
  rw [if_neg h]
  simp [playing_removeOp]

/-! ## C8: pause and stop are idempotent -/

/-- C8: calling `pause()` twice in a row leaves the world (tween fields,
registry membership, event log) identical to calling it once, and likewise
for `stop()` (with its default `gotoEnd = false`); invoking either on a
tween that is not playing returns the world unchanged — a harmless no-op,
never an error. -/
theorem pause_stop_idempotent (w : World) (i : Nat) (t1 t2 : JsNum) :
    pauseOp (pauseOp w i t1) i t2 = pauseOp w i t1 ∧
    stopOp (stopOp w i false) i false = stopOp w i false ∧
    ((w.tweens i).playing = false → pauseOp w i t1 = w ∧ stopOp w i false = w) := by
  refine ⟨?_, ?_, fun h => ⟨pauseOp_not_playing w i t1 h, stopOp_not_playing w i false h⟩⟩
  · by_cases hp : (w.tweens i).playing = true
    · exact pauseOp_not_playing _ i t2 (playing_pauseOp_of_playing w i t1 hp)
    · have hf : (w.tweens i).playing = false := by simpa using hp
      rw [pauseOp_not_playing w i t1 hf]
      exact pauseOp_not_playing w i t2 hf
  · by_cases hp : (w.tweens i).playing = true
    · exact stopOp_not_playing _ i false (playing_stopOp_of_playing w i false hp)
    · have hf : (w.tweens i).playing = false := by simpa using hp
      rw [stopOp_not_playing w i false hf]
      exact stopOp_not_playing w i false hf

/-- Witness for C8: on the initial world (tween 0 not playing), pause and
stop are no-ops, by the third conjunct of the idempotence theorem. -/
theorem pause_stop_idempotent_witness :
    pauseOp initWorld 0 1 = initWorld ∧ stopOp initWorld 0 false = initWorld :=
  (pause_stop_idempotent initWorld 0 1 2).2.2 rfl

/-! ## C1: event accounting for stop and cancel -/

theorem hasResolve_removeOp (w : World) (k j : Nat) :
    ((removeOp w k).tweens j).hasResolve = (w.tweens j).hasResolve := by
  obtain ⟨pr, nx, h⟩ := removeOp_tweens_links w k j
  rw [h]

theorem completionCount_append (a b : List Event) (i : Nat) :
    completionCount (a ++ b) i = completionCount a i + completionCount b i := by
  simp [completionCount, List.countP_append]

theorem completionCount_nil (i : Nat) : completionCount [] i = 0 := rfl

theorem completionCount_of_all_false (new : List Event) (i : Nat)
    (h : ∀ e ∈ new, ∀ k, e.isCompletionOf k = false) : completionCount new i = 0 := by
  simp only [completionCount]
  rw [List.countP_eq_zero]
  intro e he
  simp [h e he i]

theorem stateOnlyExt_refl (w : World) (i : Nat) : StateOnlyExt w w i := by
  refine ⟨⟨(w.tweens i).currentState, ?_⟩, ⟨[], rfl, by simp⟩, rfl, rfl⟩
  funext j
  by_cases h : j = i <;> simp [h]

theorem stateOnlyExt_trans {w w' w'' : World} {i : Nat}
    (h1 : StateOnlyExt w w' i) (h2 : StateOnlyExt w' w'' i) : StateOnlyExt w w'' i := by
  obtain ⟨⟨st1, ht1⟩, ⟨new1, he1, hc1⟩, hh1, htl1⟩ := h1
  obtain ⟨⟨st2, ht2⟩, ⟨new2, he2, hc2⟩, hh2, htl2⟩ := h2
  refine ⟨⟨st2, ?_⟩, ⟨new2 ++ new1, ?_, ?_⟩, hh2.trans hh1, htl2.trans htl1⟩
  · rw [ht2, ht1]
    funext j
    by_cases h : j = i <;> simp [h]
  · rw [he2, he1, List.append_assoc]
  · intro e he k
    rcases List.mem_append.mp he with h | h
    · exact hc2 e h k
    · exact hc1 e h k

theorem stateOnlyExt_applyFilterW (w : World) (i : Nat) (nm : String) :
    StateOnlyExt w (applyFilterW w i nm) i := by
  obtain ⟨st, new, h1, h2, h3, h4, h5⟩ :=
    applyFilterLoop_shape i nm ((w.tweens i).filters).length w
  exact ⟨⟨st, h1⟩, ⟨new, h2, h5⟩, h3, h4⟩

theorem stateOnlyExt_updState (w : World) (i : Nat) (st : StateMap) :
    StateOnlyExt w (updTween w i { w.tweens i with currentState := st }) i := by
  refine ⟨⟨st, ?_⟩, ⟨[], rfl, by simp⟩, rfl, rfl⟩
  funext j
  by_cases h : j = i <;> simp [h]

theorem hasResolve_of_stateOnlyExt {w w' : World} {i : Nat} (h : StateOnlyExt w w' i) :
    ∀ j, (w'.tweens j).hasResolve = (w.tweens j).hasResolve := by
  obtain ⟨⟨st, ht⟩, -, -, -⟩ := h
  intro j
  rw [ht]
  by_cases hj : j = i <;> simp [hj]

/-- The final stage of stop (resolve invocation and continuation clearing),
for any world `w3` that extends the unlinked world `w2` by state-only
changes. -/
theorem stopTail_shape (w2 w3 : World) (i : Nat) (hext : StateOnlyExt w2 w3 i) :
    ∃ st new,
      (updTween
        (if (w3.tweens i).hasResolve then
          pushEvent w3 (Event.resolve i (w3.tweens i).currentState) else w3) i
        { (if (w3.tweens i).hasResolve then
            pushEvent w3 (Event.resolve i (w3.tweens i).currentState) else w3).tweens i with
          hasResolve := false, hasReject := false }).tweens =
        (fun j => if j = i then
          { w2.tweens i with currentState := st, hasResolve := false, hasReject := false }
        else w2.tweens j) ∧
      (updTween
        (if (w3.tweens i).hasResolve then
          pushEvent w3 (Event.resolve i (w3.tweens i).currentState) else w3) i
        { (if (w3.tweens i).hasResolve then
            pushEvent w3 (Event.resolve i (w3.tweens i).currentState) else w3).tweens i with
          hasResolve := false, hasReject := false }).head = w2.head ∧
      (updTween
        (if (w3.tweens i).hasResolve then
          pushEvent w3 (Event.resolve i (w3.tweens i).currentState) else w3) i
        { (if (w3.tweens i).hasResolve then
            pushEvent w3 (Event.resolve i (w3.tweens i).currentState) else w3).tweens i with
          hasResolve := false, hasReject := false }).tail = w2.tail ∧
      (updTween
        (if (w3.tweens i).hasResolve then
          pushEvent w3 (Event.resolve i (w3.tweens i).currentState) else w3) i
        { (if (w3.tweens i).hasResolve then
            pushEvent w3 (Event.resolve i (w3.tweens i).currentState) else w3).tweens i with
          hasResolve := false, hasReject := false }).events = new ++ w2.events ∧
      completionCount new i ≤ 1 ∧
      (completionCount new i = 0 ∨ (w2.tweens i).hasResolve = true) ∧
      (∀ k, k ≠ i → completionCount new k = 0) := by
  obtain ⟨⟨st3, ht3⟩, ⟨new3, he3, hc3⟩, hh3, htl3⟩ := hext
  by_cases hres : (w3.tweens i).hasResolve = true
  · rw [if_pos hres]
    refine ⟨st3, Event.resolve i (w3.tweens i).currentState :: new3, ?_, hh3, htl3, ?_, ?_, ?_, ?_⟩
    · funext j
      by_cases hj : j = i
      · subst hj
        simp [ht3]
      · simp [hj, ht3]
    · simp [he3]
    · have h0 : completionCount new3 i = 0 := completionCount_of_all_false new3 i hc3
      simp only [completionCount, List.countP_cons] at h0 ⊢
      rw [h0]
      simp [Event.isCompletionOf]
    · right
      have := hasResolve_of_stateOnlyExt ⟨⟨st3, ht3⟩, ⟨new3, he3, hc3⟩, hh3, htl3⟩ i
      rw [← this]
      exact hres
    · intro k hk
      have h1 : (Event.resolve i (w3.tweens i).currentState).isCompletionOf k = false := by
        simp only [Event.isCompletionOf, decide_eq_false_iff_not]
        exact fun hik => hk hik.symm
      have h0 : completionCount new3 k = 0 := completionCount_of_all_false new3 k hc3
      simp only [completionCount, List.countP_cons] at h0 ⊢
      rw [h0, h1]
      simp
  · rw [if_neg hres]
    refine ⟨st3, new3, ?_, hh3, htl3, ?_, ?_, Or.inl ?_, ?_⟩
    · funext j
      by_cases hj : j = i
      · subst hj
        simp [ht3]
      · simp [hj, ht3]
    · simp [he3]
    · simp [completionCount_of_all_false new3 i hc3]
    · exact completionCount_of_all_false new3 i hc3
    · intro k hk
      exact completionCount_of_all_false new3 k hc3

/-- stop on a playing tween: the result is the unlinked world with tween
`i`'s currentState possibly rewritten and both continuations cleared; at
most one completion event is appended for tween `i` (only when a resolve
was pending) and none for any other tween. -/
theorem stopOp_shape_of_playing (w : World) (i : Nat) (g : Bool)
    (hp : (w.tweens i).playing = true) :
    ∃ st new,
      (stopOp w i g).tweens = (fun j => if j = i then
          { (removeOp (updTween w i { w.tweens i with playing := false }) i).tweens i with
              currentState := st, hasResolve := false, hasReject := false }
        else (removeOp (updTween w i { w.tweens i with playing := false }) i).tweens j) ∧
      (stopOp w i g).head =
        (removeOp (updTween w i { w.tweens i with playing := false }) i).head ∧
      (stopOp w i g).tail =
        (removeOp (updTween w i { w.tweens i with playing := false }) i).tail ∧
      (stopOp w i g).events = new ++ w.events ∧
      completionCount new i ≤ 1 ∧
      (completionCount new i = 0 ∨ (w.tweens i).hasResolve = true) ∧
      (∀ k, k ≠ i → completionCount new k = 0) := by
  have h : ¬((w.tweens i).playing = false) := by simp [hp]
  simp only [stopOp]
  rw [if_neg h]
  set w2 := removeOp (updTween w i { w.tweens i with playing := false }) i with hw2
  have hev2 : w2.events = w.events := by
    rw [hw2, removeOp_events]
    simp
  have hres2 : (w2.tweens i).hasResolve = (w.tweens i).hasResolve := by
    rw [hw2, hasResolve_removeOp]
    simp
  have hext : StateOnlyExt w2
      (if g = true then
        let w3a := if ((w2.tweens i).filters).length > 0 then
          applyFilterW w2 i "beforeTween" else w2
        let t3 := w3a.tweens i
        let w3b := updTween w3a i
          { t3 with currentState :=
              (tweenProps 1 t3.currentState t3.originalState t3.targetState 1 0 t3.easing) }
        let w3c := if ((w2.tweens i).filters).length > 0 then
          applyFilterW w3b i "afterTween" else w3b
        if ((w2.tweens i).filters).length > 0 then applyFilterW w3c i "afterTweenEnd" else w3c
      else w2) i := by
    by_cases hg : g = true
    · rw [if_pos hg]
      by_cases hf : ((w2.tweens i).filters).length > 0
      · simp only [if_pos hf]
        exact stateOnlyExt_trans (stateOnlyExt_trans (stateOnlyExt_trans
          (stateOnlyExt_applyFilterW w2 i "beforeTween")
          (stateOnlyExt_updState (applyFilterW w2 i "beforeTween") i _))
          (stateOnlyExt_applyFilterW _ i "afterTween"))
          (stateOnlyExt_applyFilterW _ i "afterTweenEnd")
      · simp only [if_neg hf]
        exact stateOnlyExt_updState w2 i _
    · rw [if_neg hg]
      exact stateOnlyExt_refl w2 i
  obtain ⟨st, new, hT, hH, hTl, hE, hb1, hb2, hb3⟩ := stopTail_shape w2 _ i hext
  refine ⟨st, new, hT, hH, hTl, hE.trans (by rw [hev2]), hb1, ?_, hb3⟩
  rcases hb2 with h0 | h1
  · exact Or.inl h0
  · exact Or.inr (by rw [← hres2]; exact h1)

/-- One stop or cancel call on tween `i`: at most one completion event is
appended for `i`, the tween ends up not playing, and if it was playing both
continuations end up cleared. -/
theorem stopCancel_step (w : World) (i : Nat) (o : Op) (ho : o.isStopCancelOf i = true) :
    ∃ new, (applyOp w o).events = new ++ w.events ∧ completionCount new i ≤ 1 ∧
      ((applyOp w o).tweens i).playing = false ∧
      ((w.tweens i).playing = true →
        ((applyOp w o).tweens i).hasResolve = false ∧
        ((applyOp w o).tweens i).hasReject = false) := by
  by_cases hp : (w.tweens i).playing = true
  · cases o with
    | stop j g =>
        have hj : j = i := by simpa [Op.isStopCancelOf] using ho
        subst hj
        obtain ⟨st, new, hT, hH, hTl, hE, hb1, hb2, hb3⟩ := stopOp_shape_of_playing w j g hp
        exact ⟨new, hE, hb1, playing_stopOp_of_playing w j g hp,
          fun _ => clears_stopOp_of_playing w j g hp⟩
    | cancel j g =>
        have hj : j = i := by simpa [Op.isStopCancelOf] using ho
        subst hj
        have h : ¬((w.tweens j).playing = false) := by simp [hp]
        simp only [applyOp, cancelOp]
        rw [if_neg h]
        set w2 := updTween
          (if (w.tweens j).hasReject then pushEvent w (Event.reject j (w.tweens j).currentState)
            else w) j
          { (if (w.tweens j).hasReject then
              pushEvent w (Event.reject j (w.tweens j).currentState) else w).tweens j with
            hasResolve := false, hasReject := false } with hw2
        have hp2 : (w2.tweens j).playing = true := by
          rw [hw2]
          by_cases hrj : (w.tweens j).hasReject = true <;> simp [hrj, hp]
        have hres2 : (w2.tweens j).hasResolve = false := by
          rw [hw2]
          simp
        have hev2 : ∃ mid, w2.events = mid ++ w.events ∧ completionCount mid j ≤ 1 := by
          rw [hw2]
          by_cases hrj : (w.tweens j).hasReject = true
          · refine ⟨[Event.reject j (w.tweens j).currentState], by simp [hrj], ?_⟩
            simp [completionCount, List.countP_cons, Event.isCompletionOf]
          · exact ⟨[], by simp [hrj], by simp [completionCount]⟩
        obtain ⟨st, new2, hT, hH, hTl, hE, hb1, hb2, hb3⟩ := stopOp_shape_of_playing w2 j g hp2
        obtain ⟨mid, hmid, hcmid⟩ := hev2
        have hcnew2 : completionCount new2 j = 0 := by
          rcases hb2 with h0 | h1
          · exact h0
          · rw [hres2] at h1
            cases h1
        refine ⟨new2 ++ mid, ?_, ?_, playing_stopOp_of_playing w2 j g hp2,
          fun _ => clears_stopOp_of_playing w2 j g hp2⟩
        · rw [hE, hmid, List.append_assoc]
        · rw [completionCount_append, hcnew2]
          simpa using hcmid
    | play j tNow => simp [Op.isStopCancelOf] at ho
    | pause j tNow => simp [Op.isStopCancelOf] at ho
    | resume j tNow => simp [Op.isStopCancelOf] at ho
  · have hnp : (w.tweens i).playing = false := by simpa using hp
    have hid : applyOp w o = w := by
      cases o with
      | stop j g =>
          have hj : j = i := by simpa [Op.isStopCancelOf] using ho
          subst hj
          exact stopOp_not_playing w j g hnp
      | cancel j g =>
          have hj : j = i := by simpa [Op.isStopCancelOf] using ho
          subst hj
          exact cancelOp_not_playing w j g hnp
      | play j tNow => simp [Op.isStopCancelOf] at ho
      | pause j tNow => simp [Op.isStopCancelOf] at ho
      | resume j tNow => simp [Op.isStopCancelOf] at ho
    rw [hid]
    exact ⟨[], rfl, by simp [completionCount], hnp, fun hcon => absurd hcon hp⟩

/-- A sequence of stop/cancel calls on a tween that is not playing leaves
the world unchanged. -/
theorem stopCancel_noop_seq (w : World) (i : Nat) (ops : List Op)
    (hnp : (w.tweens i).playing = false) (h : ∀ o ∈ ops, o.isStopCancelOf i = true) :
    applyOps w ops = w := by
  induction ops with
  | nil => rfl
  | cons o rest ih =>
      have ho := h o (by simp)
      have hid : applyOp w o = w := by
        cases o with
        | stop j g =>
            have hj : j = i := by simpa [Op.isStopCancelOf] using ho
            subst hj
            exact stopOp_not_playing w j g hnp
        | cancel j g =>
            have hj : j = i := by simpa [Op.isStopCancelOf] using ho
            subst hj
            exact cancelOp_not_playing w j g hnp
        | play j tNow => simp [Op.isStopCancelOf] at ho
        | pause j tNow => simp [Op.isStopCancelOf] at ho
        | resume j tNow => simp [Op.isStopCancelOf] at ho
      show applyOps (applyOp w o) rest = w
      rw [hid]
      exact ih (fun o' ho' => h o' (by simp [ho']))

/-! ## C1: at most one completion continuation fires -/

/-- C1: across any sequence of stop and cancel calls on tween `i`, at most
one completion continuation (resolve or reject) is ever invoked for it —
each at most once and never both, since a single shared count bounds them
together.  Moreover, if the tween was playing, the first call clears both
continuations and un-registers it, so the subsequent calls of the sequence
find nothing to invoke (stop invokes the pending resolve, if any; cancel
invokes the pending reject, if any, then performs stop, which finds no
continuation left). -/
theorem stop_cancel_completion_at_most_once (w : World) (i : Nat) (ops : List Op)
    (h : ∀ o ∈ ops, o.isStopCancelOf i = true) :
    ∃ new, (applyOps w ops).events = new ++ w.events ∧ completionCount new i ≤ 1 ∧
      ((w.tweens i).playing = true → ops ≠ [] →
        ((applyOps w ops).tweens i).hasResolve = false ∧
        ((applyOps w ops).tweens i).hasReject = false) := by
  cases ops with
  | nil => exact ⟨[], rfl, by simp [completionCount], fun _ hcon => absurd rfl hcon⟩
  | cons o rest =>
      obtain ⟨new1, hE1, hc1, hpl, hflags⟩ := stopCancel_step w i o (h o (by simp))
      have hrest : applyOps (applyOp w o) rest = applyOp w o :=
        stopCancel_noop_seq _ i rest hpl (fun o' ho' => h o' (by simp [ho']))
      have happ : applyOps w (o :: rest) = applyOp w o := by
        show applyOps (applyOp w o) rest = applyOp w o
        exact hrest
      rw [happ]
      exact ⟨new1, hE1, hc1, fun hp _ => hflags hp⟩

/-- Witness for C1: a playing tween with both continuations pending is
cancelled and then stopped; at most one completion event results across the
two calls. -/
theorem stop_cancel_completion_at_most_once_witness :
    ∃ new, (applyOps c1World [Op.cancel 0 false, Op.stop 0 false]).events =
        new ++ c1World.events ∧ completionCount new 0 ≤ 1 := by
  obtain ⟨new, h1, h2, h3⟩ :=
    stop_cancel_completion_at_most_once c1World 0 [Op.cancel 0 false, Op.stop 0 false]
      (by
        intro o ho
        rcases List.mem_cons.mp ho with rfl | ho2
        · rfl
        · rcases List.mem_cons.mp ho2 with rfl | ho3
          · rfl
          · cases ho3)
  exact ⟨new, h1, h2⟩

/-! ## Field preservation through remove -/

theorem currentState_removeOp (w : World) (k j : Nat) :
    ((removeOp w k).tweens j).currentState = (w.tweens j).currentState := by
  obtain ⟨pr, nx, h⟩ := removeOp_tweens_links w k j
  rw [h]

theorem originalState_removeOp (w : World) (k j : Nat) :
    ((removeOp w k).tweens j).originalState = (w.tweens j).originalState := by
  obtain ⟨pr, nx, h⟩ := removeOp_tweens_links w k j
  rw [h]

theorem targetState_removeOp (w : World) (k j : Nat) :
    ((removeOp w k).tweens j).targetState = (w.tweens j).targetState := by
  obtain ⟨pr, nx, h⟩ := removeOp_tweens_links w k j
  rw [h]

theorem easing_removeOp (w : World) (k j : Nat) :
    ((removeOp w k).tweens j).easing = (w.tweens j).easing := by
  obtain ⟨pr, nx, h⟩ := removeOp_tweens_links w k j
  rw [h]

theorem filters_removeOp (w : World) (k j : Nat) :
    ((removeOp w k).tweens j).filters = (w.tweens j).filters := by
  obtain ⟨pr, nx, h⟩ := removeOp_tweens_links w k j
  rw [h]

theorem pausedAt_removeOp (w : World) (k j : Nat) :
    ((removeOp w k).tweens j).pausedAt = (w.tweens j).pausedAt := by
  obtain ⟨pr, nx, h⟩ := removeOp_tweens_links w k j
  rw [h]

theorem timestamp_removeOp (w : World) (k j : Nat) :
    ((removeOp w k).tweens j).timestamp = (w.tweens j).timestamp := by
  obtain ⟨pr, nx, h⟩ := removeOp_tweens_links w k j
  rw [h]

/-! ## C7 and C3: the per-tick update -/

/-- Before the delay has elapsed, processTween is a no-op: the world —
state, registry, event log — is returned unchanged. -/
theorem processTween_delay_noop (w : World) (i : Nat) (t : JsNum)
    (h : t < (w.tweens i).timestamp.getD 0 + (w.tweens i).delay) :
    processTweenW w i t = w := by
  simp only [processTweenW]
  rw [if_pos h]

/-- In the active window (past the delay, before the end), processTween on
a filterless tween shifts the timestamp forward by the delay, interpolates
at the current time, stores the result and renders it with the
elapsed-offset within the duration. -/
theorem processTween_active (w : World) (i : Nat) (t ts0 : JsNum)
    (hts : (w.tweens i).timestamp = some ts0)
    (hf : (w.tweens i).filters = [])
    (h1 : ts0 + (w.tweens i).delay ≤ t)
    (h2 : t < ts0 + (w.tweens i).delay + (w.tweens i).duration) :
    processTweenW w i t =
      pushEvent
        (updTween w i { w.tweens i with currentState :=
          (tweenProps t (w.tweens i).currentState (w.tweens i).originalState
            (w.tweens i).targetState (w.tweens i).duration (ts0 + (w.tweens i).delay)
            (w.tweens i).easing) })
        (Event.render i
          (tweenProps t (w.tweens i).currentState (w.tweens i).originalState
            (w.tweens i).targetState (w.tweens i).duration (ts0 + (w.tweens i).delay)
            (w.tweens i).easing)
          ((w.tweens i).duration -
            ((ts0 + (w.tweens i).delay + (w.tweens i).duration) - t))) := by
  have hto : (w.tweens i).timestamp.getD 0 = ts0 := by rw [hts]; rfl
  have hnl : ¬(t < ts0 + (w.tweens i).delay) := not_lt.mpr h1
  have hfl : ¬(0 < ((w.tweens i).filters).length) := by simp [hf]
  simp only [processTweenW, hto]
  rw [if_neg hnl]
  rw [if_neg (not_lt.mpr (le_of_lt h2))]
  rw [if_neg (not_le.mpr h2)]
  simp only [if_neg hnl, if_neg hfl]
  simp

/-- C7: with a positive delay, a per-tick update strictly before
`timestamp + delay` returns the world unchanged — no state advance, no
render callback; once the current time is in the active window (and before
the end), the timestamp is shifted forward by the delay before
interpolation, so the stored state and the rendered state are the
interpolation of the elapsed time within the active window alone (probe
time `t` against reference `timestamp + delay`). -/
theorem delay_window_semantics (w : World) (i : Nat) (t ts0 : JsNum)
    (hts : (w.tweens i).timestamp = some ts0)
    (hf : (w.tweens i).filters = []) :
    (t < ts0 + (w.tweens i).delay → processTweenW w i t = w) ∧
    (ts0 + (w.tweens i).delay ≤ t →
      t < ts0 + (w.tweens i).delay + (w.tweens i).duration →
      processTweenW w i t =
        pushEvent
          (updTween w i { w.tweens i with currentState :=
            (tweenProps t (w.tweens i).currentState (w.tweens i).originalState
              (w.tweens i).targetState (w.tweens i).duration (ts0 + (w.tweens i).delay)
              (w.tweens i).easing) })
          (Event.render i
            (tweenProps t (w.tweens i).currentState (w.tweens i).originalState
              (w.tweens i).targetState (w.tweens i).duration (ts0 + (w.tweens i).delay)
              (w.tweens i).easing)
            ((w.tweens i).duration -
              ((ts0 + (w.tweens i).delay + (w.tweens i).duration) - t)))) := by
  constructor
  · intro h
    exact processTween_delay_noop w i t (by rw [hts]; exact h)
  · intro h1 h2
    exact processTween_active w i t ts0 hts hf h1 h2

/-- Witness for C7 on the spec's scenario (delay 50, duration 100,
`{x: 0} → {x: 10}`): the update at elapsed 25 is a no-op and the update at
elapsed 75 stores `x = 5/2`. -/
theorem delay_window_semantics_witness :
    processTweenW c7World 0 25 = c7World ∧
    ((processTweenW c7World 0 75).tweens 0).currentState = [("x", 5/2)] := by
  constructor
  · exact (delay_window_semantics c7World 0 25 0 rfl rfl).1 (by norm_num [c7World])
  · rw [(delay_window_semantics c7World 0 75 0 rfl rfl).2 (by norm_num [c7World])
      (by norm_num [c7World])]
    norm_num [c7World, tweenProps, sLookup, linear, List.find?]

/-- stop with goto-end on a playing, filterless tween with a pending
resolve: the interpolator is forced to position 1 (unit duration, zero
timestamp) and the resolve continuation receives the resulting state; one
resolve event is appended. -/
theorem stopOp_gotoEnd_nofilters (w1 : World) (i : Nat)
    (hp : (w1.tweens i).playing = true) (hres : (w1.tweens i).hasResolve = true)
    (hf : (w1.tweens i).filters = []) :
    (stopOp w1 i true).events =
      Event.resolve i (tweenProps 1 (w1.tweens i).currentState (w1.tweens i).originalState
        (w1.tweens i).targetState 1 0 (w1.tweens i).easing) :: w1.events := by
  have h : ¬((w1.tweens i).playing = false) := by simp [hp]
  simp only [stopOp]
  rw [if_neg h]
  set w2 := removeOp (updTween w1 i { w1.tweens i with playing := false }) i with hw2
  have hfil2 : (w2.tweens i).filters = [] := by
    rw [hw2, filters_removeOp]
    simpa using hf
  have hres2 : (w2.tweens i).hasResolve = true := by
    rw [hw2, hasResolve_removeOp]
    simpa using hres
  have hfl : ¬(0 < ((w2.tweens i).filters).length) := by simp [hfil2]
  simp only [eq_self_iff_true, if_true]
  simp only [if_neg hfl]
  rw [if_pos (show ((updTween w2 i { w2.tweens i with currentState :=
      (tweenProps 1 (w2.tweens i).currentState (w2.tweens i).originalState
        (w2.tweens i).targetState 1 0 (w2.tweens i).easing) }).tweens i).hasResolve = true
    by simp [hres2])]
  simp only [events_updTween, events_pushEvent, tweens_updTween, if_pos rfl]
  rw [hw2]
  simp [currentState_removeOp, originalState_removeOp, targetState_removeOp,
    easing_removeOp, removeOp_events]

/-- At or past `timestamp + delay + duration`, processTween reduces to one
render of the exact target state (with offset equal to the full duration)
followed by `stop(true)`. -/
theorem processTween_end_reduces (w : World) (i : Nat) (t ts0 : JsNum)
    (hts : (w.tweens i).timestamp = some ts0)
    (hend : ts0 + (w.tweens i).delay + (w.tweens i).duration ≤ t)
    (hstart : ts0 + (w.tweens i).delay ≤ t) :
    processTweenW w i t =
      stopOp (pushEvent w (Event.render i (w.tweens i).targetState (w.tweens i).duration))
        i true := by
  have hto : (w.tweens i).timestamp.getD 0 = ts0 := by rw [hts]; rfl
  have hg : ¬(t < ts0 + (w.tweens i).delay) := not_lt.mpr hstart
  simp only [processTweenW, hto]
  rw [if_neg hg]
  by_cases hgt : ts0 + (w.tweens i).delay + (w.tweens i).duration < t
  · rw [if_pos hgt]
    rw [if_pos (le_refl _)]
    simp
  · rw [if_neg hgt]
    have hteq : t = ts0 + (w.tweens i).delay + (w.tweens i).duration :=
      le_antisymm (not_lt.mp hgt) hend
    subst hteq
    rw [if_pos (le_refl _)]
    simp

/-- C3: for a registered (playing) filterless tween with a pending resolve
continuation, a per-tick update at or past `timestamp + delay + duration`
invokes the render callback with exactly the stored target state (not an
eased approximation), then stops the tween with completion: it becomes
not-playing, the pending resolve fires exactly once (with the goto-end
state), and both continuations are cleared. -/
theorem end_render_target_and_resolve (w : World) (i : Nat) (t ts0 : JsNum)
    (hts : (w.tweens i).timestamp = some ts0)
    (hend : ts0 + (w.tweens i).delay + (w.tweens i).duration ≤ t)
    (hdur : 0 ≤ (w.tweens i).duration)
    (hp : (w.tweens i).playing = true)
    (hres : (w.tweens i).hasResolve = true)
    (hf : (w.tweens i).filters = []) :
    (processTweenW w i t).events =
      Event.resolve i (tweenProps 1 (w.tweens i).currentState (w.tweens i).originalState
          (w.tweens i).targetState 1 0 (w.tweens i).easing) ::
        Event.render i (w.tweens i).targetState (w.tweens i).duration :: w.events ∧
    ((processTweenW w i t).tweens i).playing = false ∧
    ((processTweenW w i t).tweens i).hasResolve = false ∧
    ((processTweenW w i t).tweens i).hasReject = false := by
  rw [processTween_end_reduces w i t ts0 hts hend (le_trans (by linarith) hend)]
  set w1 := pushEvent w (Event.render i (w.tweens i).targetState (w.tweens i).duration)
    with hw1
  have hp1 : (w1.tweens i).playing = true := by rw [hw1]; simpa using hp
  have hres1 : (w1.tweens i).hasResolve = true := by rw [hw1]; simpa using hres
  have hf1 : (w1.tweens i).filters = [] := by rw [hw1]; simpa using hf
  refine ⟨?_, playing_stopOp_of_playing w1 i true hp1,
    (clears_stopOp_of_playing w1 i true hp1).1,
    (clears_stopOp_of_playing w1 i true hp1).2⟩
  rw [stopOp_gotoEnd_nofilters w1 i hp1 hres1 hf1]
  rw [hw1]
  simp

/-- Witness for C3 on the spec's scenario (`{x: 0} → {x: 100}`, duration
100, started at 0, probed at 150): render receives exactly `{x: 100}`, the
success continuation fires once with `{x: 100}`, and the tween stops. -/
theorem end_render_target_and_resolve_witness :
    (processTweenW c3World 0 150).events =
      [Event.resolve 0 [("x", 100)], Event.render 0 [("x", 100)] 100] ∧
    ((processTweenW c3World 0 150).tweens 0).playing = false := by
  obtain ⟨he, hpl, h1, h2⟩ := end_render_target_and_resolve c3World 0 150 0 rfl
    (by norm_num [c3World]) (by norm_num [c3World]) rfl rfl rfl
  refine ⟨?_, hpl⟩
  rw [he]
  norm_num [c3World, tweenProps, sLookup, linear, List.find?]

/-! ## C6: resume after pause -/

/-- The registry insertion only rewrites links: every tween keeps all its
other fields. -/
theorem insertReg_tweens_links (w : World) (k j : Nat) :
    ∃ pr nx, (insertReg w k).tweens j = { w.tweens j with prev := pr, next := nx } := by
  simp only [insertReg, tweens_updTween]
  repeat' split
  all_goals try simp only [tweens_updTween]
  all_goals try (split_ifs <;> try subst_vars)
  all_goals try subst_vars
  all_goals exact ⟨_, _, rfl⟩

theorem timestamp_insertReg (w : World) (k j : Nat) :
    ((insertReg w k).tweens j).timestamp = (w.tweens j).timestamp := by
  obtain ⟨pr, nx, h⟩ := insertReg_tweens_links w k j
  rw [h]

theorem pausedAt_insertReg (w : World) (k j : Nat) :
    ((insertReg w k).tweens j).pausedAt = (w.tweens j).pausedAt := by
  obtain ⟨pr, nx, h⟩ := insertReg_tweens_links w k j
  rw [h]

/-- C6 (amended): for a tween paused at a nonzero clock time `p` (the code
guards the shift with a JS truthiness test on `pausedAtTime`, so a pause
recorded exactly at clock 0 is resumed without any shift), resume moves the
stored timestamp forward by exactly the elapsed pause duration `tNow - p`
and clears `pausedAtTime`; hence the elapsed time observed at the resume
instant equals the elapsed time at the pause instant, `p - ts0`, and paused
time does not count against the animation. -/
theorem resume_shifts_timestamp (w : World) (i : Nat) (tNow ts0 p : JsNum)
    (hnp : (w.tweens i).playing = false)
    (hpa : (w.tweens i).pausedAt = some p)
    (hp0 : p ≠ 0)
    (hts : (w.tweens i).timestamp = some ts0) :
    ((resumeOp w i tNow).tweens i).timestamp = some (ts0 + (tNow - p)) ∧
    ((resumeOp w i tNow).tweens i).pausedAt = none ∧
    tNow - (ts0 + (tNow - p)) = p - ts0 := by
  have hne : ¬((w.tweens i).timestamp = none) := by simp [hts]
  have hnpl : ¬((w.tweens i).playing = true) := by simp [hnp]
  simp only [resumeOp]
  rw [if_neg hne]
  simp only [resumeCore, hpa]
  rw [if_neg hnpl]
  rw [if_pos hp0]
  constructor
  · rw [timestamp_insertReg]
    simp [hts]
  constructor
  · rw [pausedAt_insertReg]
    simp
  · ring

/-- Witness for C6: a tween paused at clock 30 with timestamp 10, resumed
at clock 1000: the timestamp becomes 10 + (1000 - 30) and the pause mark is
cleared. -/
theorem resume_shifts_timestamp_witness :
    ((resumeOp c6PausedAt30 0 1000).tweens 0).timestamp = some (10 + (1000 - 30)) ∧
    ((resumeOp c6PausedAt30 0 1000).tweens 0).pausedAt = none ∧
    (1000 : JsNum) - (10 + (1000 - 30)) = 30 - 10 :=
  resume_shifts_timestamp c6PausedAt30 0 1000 10 30 rfl rfl (by norm_num) rfl

/-- C6 counterexample: a tween started at clock -20 and paused at clock 0
(that is how `pause()` records a pause when `Tweenable.now()` reads 0).
Resuming at clock 1000, the claim as stated demands the timestamp shifted
to -20 + (1000 - 0) = 980 and `pausedAtTime` cleared; the code's truthiness
test `if (this._pausedAtTime)` treats the stored 0 as falsy and skips the
whole branch, so neither happens. -/
theorem resume_shift_counterexample :
    ¬(((resumeOp c6World 0 1000).tweens 0).timestamp = some ((-20) + (1000 - 0)) ∧
      ((resumeOp c6World 0 1000).tweens 0).pausedAt = none) := by
  intro h
  have hpa : ((resumeOp c6World 0 1000).tweens 0).pausedAt = some 0 := by
    have hne : ¬(((c6World.tweens 0).timestamp) = none) := by simp [c6World]
    have hnpl : ¬(((c6World.tweens 0).playing) = true) := by simp [c6World]
    simp only [resumeOp]
    rw [if_neg hne]
    simp only [resumeCore, show (c6World.tweens 0).pausedAt = some 0 from rfl]
    rw [if_neg hnpl]
    rw [if_neg (show ¬((0 : JsNum) ≠ 0) from fun hc => hc rfl)]
    rw [pausedAt_insertReg]
    simp [c6World]
  rw [h.2] at hpa
  exact Option.noConfusion hpa

/-! ## C9: seek(0) twice -/

theorem updTween_self (w : World) (i : Nat) : updTween w i (w.tweens i) = w := by
  cases w with
  | mk tw hd tl ev =>
      simp only [updTween]
      congr 1
      funext j
      by_cases h : j = i <;> simp [h]

theorem updTween_timestamp_self (w : World) (i : Nat) (v : Option JsNum)
    (h : (w.tweens i).timestamp = v) :
    updTween w i { w.tweens i with timestamp := v } = w := by
  have h2 : ({ w.tweens i with timestamp := v } : Tween) = w.tweens i := by
    rw [← h]
  rw [h2, updTween_self]

theorem updState_field_self (t : Tween) (v : StateMap) (h : t.currentState = v) :
    ({ t with currentState := v } : Tween) = t := by
  rw [← h]

/-- Re-interpolating an already interpolated state is the identity: the
written value of each property depends only on the property's key, not on
its previous value. -/
theorem tweenProps_idem (fp : JsNum) (cs o tg : StateMap) (d ts : JsNum) (e : Easing) :
    tweenProps fp (tweenProps fp cs o tg d ts e) o tg d ts e =
      tweenProps fp cs o tg d ts e := by
  cases e with
  | single f =>
      simp only [tweenProps, List.map_map]
      rfl
  | perKey m =>
      simp only [tweenProps, List.map_map]
      rfl

/-- stop rewrites only tween `i`'s playing flag, currentState, continuation
flags and links; every other field keeps its value. -/
theorem stopOp_tween_fields (w : World) (i : Nat) (g : Bool) :
    ∃ pl cs hr hj pr nx, (stopOp w i g).tweens i =
      { w.tweens i with
          playing := pl, currentState := cs, hasResolve := hr, hasReject := hj, prev := pr, next := nx } := by
  by_cases hp : (w.tweens i).playing = true
  · obtain ⟨st, new, hT, h2, h3, h4, h5, h6, h7⟩ := stopOp_shape_of_playing w i g hp
    obtain ⟨pr, nx, hR⟩ :=
      removeOp_tweens_links (updTween w i { w.tweens i with playing := false }) i i
    refine ⟨false, st, false, false, pr, nx, ?_⟩
    have := congrFun hT i
    simp only [if_pos rfl] at this
    rw [this, hR]
    simp
  · have hnp : (w.tweens i).playing = false := by simpa using hp
    rw [stopOp_not_playing w i g hnp]
    exact ⟨(w.tweens i).playing, (w.tweens i).currentState, (w.tweens i).hasResolve,
      (w.tweens i).hasReject, (w.tweens i).prev, (w.tweens i).next, rfl⟩

theorem timestamp_stopOp (w : World) (i : Nat) (g : Bool) :
    ((stopOp w i g).tweens i).timestamp = (w.tweens i).timestamp := by
  obtain ⟨pl, cs, hr, hj, pr, nx, h⟩ := stopOp_tween_fields w i g
  rw [h]

theorem delay_stopOp (w : World) (i : Nat) (g : Bool) :
    ((stopOp w i g).tweens i).delay = (w.tweens i).delay := by
  obtain ⟨pl, cs, hr, hj, pr, nx, h⟩ := stopOp_tween_fields w i g
  rw [h]

theorem duration_stopOp (w : World) (i : Nat) (g : Bool) :
    ((stopOp w i g).tweens i).duration = (w.tweens i).duration := by
  obtain ⟨pl, cs, hr, hj, pr, nx, h⟩ := stopOp_tween_fields w i g
  rw [h]

theorem filters_stopOp (w : World) (i : Nat) (g : Bool) :
    ((stopOp w i g).tweens i).filters = (w.tweens i).filters := by
  obtain ⟨pl, cs, hr, hj, pr, nx, h⟩ := stopOp_tween_fields w i g
  rw [h]

theorem playing_stopOp_false (w : World) (i : Nat) (g : Bool)
    (h : (w.tweens i).playing = false) :
    ((stopOp w i g).tweens i).playing = false := by
  rw [stopOp_not_playing w i g h]
  exact h

/-- Running the per-tick update twice at the same current time leaves the
tween state and the registry exactly as after the first run (only the event
log can grow), for a filterless started tween. -/
theorem processTween_twice (W0 : World) (i : Nat) (t T : JsNum)
    (hts0 : (W0.tweens i).timestamp = some T)
    (hf0 : (W0.tweens i).filters = []) :
    (processTweenW (processTweenW W0 i t) i t).tweens = (processTweenW W0 i t).tweens ∧
    (processTweenW (processTweenW W0 i t) i t).head = (processTweenW W0 i t).head ∧
    (processTweenW (processTweenW W0 i t) i t).tail = (processTweenW W0 i t).tail := by
  by_cases hph1 : t < T + (W0.tweens i).delay
  · have hnoop : processTweenW W0 i t = W0 :=
      processTween_delay_noop W0 i t (by rw [hts0]; simpa using hph1)
    rw [hnoop, hnoop]
    exact ⟨rfl, rfl, rfl⟩
  · have hge : T + (W0.tweens i).delay ≤ t := not_lt.mp hph1
    by_cases hph2 : t < T + (W0.tweens i).delay + (W0.tweens i).duration
    · -- active window
      have hw1 := processTween_active W0 i t T hts0 hf0 hge hph2
      rw [hw1]
      set S := tweenProps t (W0.tweens i).currentState (W0.tweens i).originalState
        (W0.tweens i).targetState (W0.tweens i).duration (T + (W0.tweens i).delay)
        (W0.tweens i).easing with hS
      set W1 := pushEvent
        (updTween W0 i { W0.tweens i with currentState := S })
        (Event.render i S
          ((W0.tweens i).duration -
            ((T + (W0.tweens i).delay + (W0.tweens i).duration) - t))) with hW1
      have ht1 : W1.tweens i = { W0.tweens i with currentState := S } := by
        rw [hW1]
        simp
      have hts1 : (W1.tweens i).timestamp = some T := by rw [ht1]; simpa using hts0
      have hf1 : (W1.tweens i).filters = [] := by rw [ht1]; simpa using hf0
      have hd1 : (W1.tweens i).delay = (W0.tweens i).delay := by rw [ht1]
      have hdur1 : (W1.tweens i).duration = (W0.tweens i).duration := by rw [ht1]
      have hge1 : T + (W1.tweens i).delay ≤ t := by rw [hd1]; exact hge
      have hlt1 : t < T + (W1.tweens i).delay + (W1.tweens i).duration := by
        rw [hd1, hdur1]; exact hph2
      have hw2 := processTween_active W1 i t T hts1 hf1 hge1 hlt1
      rw [hw2]
      have hS2 : tweenProps t (W1.tweens i).currentState (W1.tweens i).originalState
          (W1.tweens i).targetState (W1.tweens i).duration (T + (W1.tweens i).delay)
          (W1.tweens i).easing = S := by
        rw [ht1]
        simp only []
        rw [hS]
        exact tweenProps_idem t (W0.tweens i).currentState (W0.tweens i).originalState
          (W0.tweens i).targetState (W0.tweens i).duration (T + (W0.tweens i).delay)
          (W0.tweens i).easing
      refine ⟨?_, rfl, rfl⟩
      funext j
      by_cases hj : j = i
      · subst hj
        simp only [tweens_pushEvent, tweens_updTween, if_pos rfl]
        refine updState_field_self (W1.tweens j) _ ?_
        rw [hS2, ht1]
      · simp [hj]
    · -- at or past the end
      have hend : T + (W0.tweens i).delay + (W0.tweens i).duration ≤ t := not_lt.mp hph2
      have hw1 := processTween_end_reduces W0 i t T hts0 hend hge
      rw [hw1]
      set W1 := stopOp
        (pushEvent W0 (Event.render i (W0.tweens i).targetState (W0.tweens i).duration))
        i true with hW1
      have hts1 : (W1.tweens i).timestamp = some T := by
        rw [hW1, timestamp_stopOp]
        simpa using hts0
      have hd1 : (W1.tweens i).delay = (W0.tweens i).delay := by
        rw [hW1, delay_stopOp]
        simp
      have hdur1 : (W1.tweens i).duration = (W0.tweens i).duration := by
        rw [hW1, duration_stopOp]
        simp
      have hend1 : T + (W1.tweens i).delay + (W1.tweens i).duration ≤ t := by
        rw [hd1, hdur1]; exact hend
      have hge1 : T + (W1.tweens i).delay ≤ t := by rw [hd1]; exact hge
      have hw2 := processTween_end_reduces W1 i t T hts1 hend1 hge1
      rw [hw2]
      have hpl1 : (W1.tweens i).playing = false := by
        rw [hW1]
        by_cases hp0 : ((pushEvent W0
            (Event.render i (W0.tweens i).targetState (W0.tweens i).duration)).tweens i).playing
            = true
        · exact playing_stopOp_of_playing _ i true hp0
        · exact playing_stopOp_false _ i true (by simpa using hp0)
      have hstop2 : stopOp (pushEvent W1
          (Event.render i (W1.tweens i).targetState (W1.tweens i).duration)) i true =
          pushEvent W1 (Event.render i (W1.tweens i).targetState (W1.tweens i).duration) :=
        stopOp_not_playing _ i true (by simpa using hpl1)
      rw [hstop2]
      exact ⟨rfl, rfl, rfl⟩

theorem timestamp_applyFilterW (w : World) (ti : Nat) (nm : String) (j : Nat) :
    ((applyFilterW w ti nm).tweens j).timestamp = (w.tweens j).timestamp := by
  obtain ⟨st, new, h1, -, -, -, -⟩ :=
    applyFilterLoop_shape ti nm ((w.tweens ti).filters).length w
  rw [applyFilterW, h1]
  by_cases h : j = ti <;> simp [h]

/-- The per-tick update never rewrites the tween's timestamp. -/
theorem timestamp_processTweenW (w : World) (i : Nat) (t : JsNum) :
    ((processTweenW w i t).tweens i).timestamp = (w.tweens i).timestamp := by
  by_cases h1 : t < (w.tweens i).timestamp.getD 0 + (w.tweens i).delay
  · rw [processTween_delay_noop w i t h1]
  · simp only [processTweenW]
    rw [if_neg h1]
    by_cases h2 : (w.tweens i).timestamp.getD 0 + (w.tweens i).delay + (w.tweens i).duration ≤
        (if (w.tweens i).timestamp.getD 0 + (w.tweens i).delay + (w.tweens i).duration < t
          then (w.tweens i).timestamp.getD 0 + (w.tweens i).delay + (w.tweens i).duration
          else t)
    · rw [if_pos h2, timestamp_stopOp]
      simp
    · rw [if_neg h2]
      by_cases hfil : 0 < ((w.tweens i).filters).length <;>
        simp [hfil, timestamp_applyFilterW]

/-- C9 (amended): `seek(0)` immediately followed by `seek(0)` leaves every
tween's fields and the registry pointers unchanged for a tween with no
applicable filters — but in general not through the degenerate-time guard:
that guard short-circuits only when `timestamp + time` is 0 (in particular
for a never-started tween, whose null timestamp coerces to 0, making both
calls strict no-ops); otherwise the second call recomputes the same
timestamp, recomputes the same state, and re-invokes the render callback.
seek clamps a negative requested time to 0 before use. -/
theorem seek_zero_twice (w : World) (i : Nat) (t : JsNum)
    (hf : (w.tweens i).filters = []) :
    ((seekOp (seekOp w i 0 t) i 0 t).tweens = (seekOp w i 0 t).tweens ∧
      (seekOp (seekOp w i 0 t) i 0 t).head = (seekOp w i 0 t).head ∧
      (seekOp (seekOp w i 0 t) i 0 t).tail = (seekOp w i 0 t).tail) ∧
    ((w.tweens i).timestamp = none → seekOp w i 0 t = w) ∧
    (∀ ms, ms ≤ 0 → seekOp w i ms t = seekOp w i 0 t) := by
  have part4 : (w.tweens i).timestamp = none → seekOp w i 0 t = w := by
    intro hn
    have hc : (w.tweens i).timestamp.getD 0 + max (0 : JsNum) 0 = 0 := by
      rw [hn]
      simp
    simp only [seekOp]
    rw [if_pos hc]
  have part5 : ∀ ms, ms ≤ 0 → seekOp w i ms t = seekOp w i 0 t := by
    intro ms hms
    have h1 : max ms (0 : JsNum) = 0 := max_eq_right hms
    simp only [seekOp, h1, max_self]
  refine ⟨?_, part4, part5⟩
  by_cases hg1 : (w.tweens i).timestamp.getD 0 + max (0 : JsNum) 0 = 0
  · have h1 : seekOp w i 0 t = w := by
      simp only [seekOp]
      rw [if_pos hg1]
    rw [h1, h1]
    exact ⟨rfl, rfl, rfl⟩
  · have h1 : seekOp w i 0 t =
        processTweenW (updTween w i
          { w.tweens i with timestamp := some (t - max (0 : JsNum) 0) }) i t := by
      simp only [seekOp]
      rw [if_neg hg1]
    set W0 := updTween w i { w.tweens i with timestamp := some (t - max (0 : JsNum) 0) }
      with hW0
    have hts0 : (W0.tweens i).timestamp = some (t - max (0 : JsNum) 0) := by
      rw [hW0]
      simp
    have hf0 : (W0.tweens i).filters = [] := by
      rw [hW0]
      simpa using hf
    have htsW1 : ((processTweenW W0 i t).tweens i).timestamp =
        some (t - max (0 : JsNum) 0) := by
      rw [timestamp_processTweenW, hts0]
    rw [h1]
    by_cases hg2 : ((processTweenW W0 i t).tweens i).timestamp.getD 0 + max (0 : JsNum) 0 = 0
    · have h2 : seekOp (processTweenW W0 i t) i 0 t = processTweenW W0 i t := by
        simp only [seekOp]
        rw [if_pos hg2]
      rw [h2]
      exact ⟨rfl, rfl, rfl⟩
    · have h2 : seekOp (processTweenW W0 i t) i 0 t =
          processTweenW (updTween (processTweenW W0 i t) i
            { (processTweenW W0 i t).tweens i with
                timestamp := some (t - max (0 : JsNum) 0) }) i t := by
        simp only [seekOp]
        rw [if_neg hg2]
      rw [h2, updTween_timestamp_self _ _ _ htsW1]
      exact processTween_twice W0 i t (t - max (0 : JsNum) 0) hts0 hf0

/-- Witness for C9: a never-started tween (null timestamp): both seeks are
strict no-ops via the degenerate-time guard, and a negative seek time is
clamped to 0. -/
theorem seek_zero_twice_witness :
    ((seekOp (seekOp initWorld 0 0 5) 0 0 5).tweens = (seekOp initWorld 0 0 5).tweens ∧
      (seekOp (seekOp initWorld 0 0 5) 0 0 5).head = (seekOp initWorld 0 0 5).head ∧
      (seekOp (seekOp initWorld 0 0 5) 0 0 5).tail = (seekOp initWorld 0 0 5).tail) ∧
    ((initWorld.tweens 0).timestamp = none → seekOp initWorld 0 0 5 = initWorld) ∧
    (∀ ms, ms ≤ 0 → seekOp initWorld 0 ms 5 = seekOp initWorld 0 0 5) :=
  seek_zero_twice initWorld 0 5 rfl

/-- C9 counterexample: for a started tween (timestamp 100, duration 100,
delay 0) the second `seek(0)` at clock 100 is not a no-op: the degenerate
guard `timestamp + millisecond === 0` does not fire (100 + 0 is nonzero),
so the update runs again and appends another render event — the world after
the second seek differs from the world after the first. -/
theorem seek_twice_not_noop_counterexample :
    seekOp (seekOp c9World 0 0 100) 0 0 100 ≠ seekOp c9World 0 0 100 := by
  have h1 : seekOp c9World 0 0 100 =
      processTweenW (updTween c9World 0
        { c9World.tweens 0 with timestamp := some ((100 : JsNum) - max 0 0) }) 0 100 := by
    simp only [seekOp]
    rw [if_neg (by norm_num [c9World])]
  set W0 := updTween c9World 0
    { c9World.tweens 0 with timestamp := some ((100 : JsNum) - max 0 0) } with hW0
  have hts0 : (W0.tweens 0).timestamp = some ((100 : JsNum) - max 0 0) := by
    rw [hW0]
    simp
  have hf0 : (W0.tweens 0).filters = [] := by
    rw [hW0]
    simp [c9World]
  have htsW1 : ((processTweenW W0 0 100).tweens 0).timestamp =
      some ((100 : JsNum) - max 0 0) := by
    rw [timestamp_processTweenW, hts0]
  have hfW1 : ((processTweenW W0 0 100).tweens 0).filters = [] := by
    have hd := delay_window_semantics W0 0 100 ((100 : JsNum) - max 0 0) hts0 hf0
    rw [hd.2 (by norm_num [c9World, hW0]) (by norm_num [c9World, hW0])]
    simpa using hf0
  have hg2 : ¬(((processTweenW W0 0 100).tweens 0).timestamp.getD 0 + max (0 : JsNum) 0
      = 0) := by
    rw [htsW1]
    norm_num
  have h2 : seekOp (processTweenW W0 0 100) 0 0 100 =
      processTweenW (updTween (processTweenW W0 0 100) 0
        { (processTweenW W0 0 100).tweens 0 with
            timestamp := some ((100 : JsNum) - max 0 0) }) 0 100 := by
    simp only [seekOp]
    rw [if_neg hg2]
  intro hcon
  rw [h1] at hcon
  rw [h2, updTween_timestamp_self _ _ _ htsW1] at hcon
  -- the second update appends a render event on top of the first one's log
  have hdW1 := delay_window_semantics (processTweenW W0 0 100) 0 100
    ((100 : JsNum) - max 0 0) htsW1 hfW1
  have hdelW1 : ((processTweenW W0 0 100).tweens 0).delay = 0 := by
    have hd := delay_window_semantics W0 0 100 ((100 : JsNum) - max 0 0) hts0 hf0
    rw [hd.2 (by norm_num [c9World, hW0]) (by norm_num [c9World, hW0])]
    simp [c9World, hW0]
  have hdurW1 : ((processTweenW W0 0 100).tweens 0).duration = 100 := by
    have hd := delay_window_semantics W0 0 100 ((100 : JsNum) - max 0 0) hts0 hf0
    rw [hd.2 (by norm_num [c9World, hW0]) (by norm_num [c9World, hW0])]
    simp [c9World, hW0]
  have h3 := hdW1.2
    (by rw [hdelW1]; norm_num)
    (by rw [hdelW1, hdurW1]; norm_num)
  rw [h3] at hcon
  have hev := congrArg World.events hcon
  simp only [events_pushEvent, events_updTween] at hev
  exact List.cons_ne_self _ _ hev

/-! ## C4: the registry is a well-formed doubly-linked list of exactly the
playing tweens -/

theorem headOr_append (l1 l2 : List Nat) (d : Option Nat) :
    headOr (l1 ++ l2) d = headOr l1 (headOr l2 d) := by
  cases l1 <;> rfl

theorem lastOr_cons (x : Nat) (l : List Nat) (d : Option Nat) :
    lastOr (x :: l) d = lastOr l (some x) := rfl

theorem lastOr_append (l1 l2 : List Nat) (d : Option Nat) :
    lastOr (l1 ++ l2) d = lastOr l2 (lastOr l1 d) := by
  induction l1 generalizing d with
  | nil => rfl
  | cons x l1' ih => simp [lastOr_cons, ih]

theorem lastOr_nonempty (l : List Nat) (d d' : Option Nat) (h : l ≠ []) :
    lastOr l d = lastOr l d' := by
  cases l with
  | nil => exact absurd rfl h
  | cons x rest => rfl

theorem lastOr_some (l : List Nat) (a : Nat) : ∃ b, lastOr l (some a) = some b := by
  induction l generalizing a with
  | nil => exact ⟨a, rfl⟩
  | cons x rest ih => exact ih x

theorem lastOr_mem (l : List Nat) (d : Option Nat) (p : Nat) (hl : l ≠ [])
    (h : lastOr l d = some p) : p ∈ l := by
  induction l generalizing d with
  | nil => exact absurd rfl hl
  | cons x rest ih =>
      by_cases hr : rest = []
      · subst hr
        rw [lastOr_cons] at h
        have hx : x = p := by simpa [lastOr] using h
        simp [hx]
      · rw [lastOr_cons] at h
        exact List.mem_cons_of_mem x (ih (some x) hr h)

theorem seg_congr {w w' : World} {pr : Option Nat} {l : List Nat} {nx : Option Nat}
    (hag : ∀ j ∈ l, (w'.tweens j).prev = (w.tweens j).prev ∧
      (w'.tweens j).next = (w.tweens j).next)
    (h : seg w pr l nx) : seg w' pr l nx := by
  induction l generalizing pr with
  | nil => trivial
  | cons x rest ih =>
      obtain ⟨h1, h2, h3⟩ := h
      obtain ⟨ha1, ha2⟩ := hag x (by simp)
      exact ⟨ha1.trans h1, ha2.trans h2, ih (fun j hj => hag j (by simp [hj])) h3⟩

theorem seg_append (w : World) (pr : Option Nat) (l1 l2 : List Nat) (nx : Option Nat) :
    seg w pr (l1 ++ l2) nx ↔
      seg w pr l1 (headOr l2 nx) ∧ seg w (lastOr l1 pr) l2 nx := by
  induction l1 generalizing pr with
  | nil => simp [seg, lastOr]
  | cons x l1' ih =>
      simp only [List.cons_append, seg, List.append_eq]
      constructor
      · rintro ⟨h1, h2, h3⟩
        rw [ih] at h3
        obtain ⟨h3a, h3b⟩ := h3
        refine ⟨⟨h1, ?_, h3a⟩, h3b⟩
        rw [h2, headOr_append]
      · rintro ⟨⟨h1, h2, h3⟩, h4⟩
        rw [lastOr_cons] at h4
        refine ⟨h1, ?_, ?_⟩
        · rw [h2, headOr_append]
        · rw [ih]
          exact ⟨h3, h4⟩

theorem seg_set_last_next (w : World) (pr : Option Nat) (l : List Nat) (p : Nat)
    (nx' nx0 : Option Nat) (h : seg w pr l nx0) (hp : lastOr l pr = some p)
    (hnd : l.Nodup) :
    seg (updTween w p { w.tweens p with next := nx' }) pr l nx' := by
  induction l generalizing pr with
  | nil => trivial
  | cons x rest ih =>
      obtain ⟨h1, h2, h3⟩ := h
      cases hr : rest with
      | nil =>
          subst hr
          rw [lastOr_cons, lastOr] at hp
          have hxp : x = p := by simpa using hp
          subst hxp
          refine ⟨?_, ?_, trivial⟩
          · simp [h1]
          · simp [headOr]
      | cons y rest' =>
          rw [lastOr_cons] at hp
          have hpmem : p ∈ rest := lastOr_mem rest (some x) p (by rw [hr]; simp) hp
          have hxp : x ≠ p := fun hc => (List.nodup_cons.mp hnd).1 (hc ▸ hpmem)
          refine ⟨?_, ?_, ?_⟩
          · rw [tweens_updTween, if_neg hxp, h1]
          · rw [tweens_updTween, if_neg hxp, h2, hr]
            rfl
          · exact hr ▸ ih (some x) h3 hp (List.nodup_cons.mp hnd).2

theorem seg_set_first_prev (w : World) (o pr' : Option Nat) (n : Nat) (l : List Nat)
    (nx : Option Nat) (h : seg w o (n :: l) nx) (hnd : (n :: l).Nodup) :
    seg (updTween w n { w.tweens n with prev := pr' }) pr' (n :: l) nx := by
  obtain ⟨h1, h2, h3⟩ := h
  refine ⟨by simp, ?_, ?_⟩
  · simp [h2]
  · refine seg_congr (fun j hj => ?_) h3
    have hjn : j ≠ n := fun hc => (List.nodup_cons.mp hnd).1 (hc ▸ hj)
    rw [tweens_updTween, if_neg hjn]
    exact ⟨rfl, rfl⟩

theorem nextRefs_of_seg (w : World) (l : List Nat) :
    ∀ (pr : Option Nat) (fuel : Nat), seg w pr l none → l.length ≤ fuel →
      nextRefs w fuel (headOr l none) = l := by
  induction l with
  | nil =>
      intro pr fuel h hf
      cases fuel <;> rfl
  | cons x rest ih =>
      intro pr fuel h hf
      obtain ⟨h1, h2, h3⟩ := h
      cases fuel with
      | zero => simp at hf
      | succ f =>
          show x :: nextRefs w f ((w.tweens x).next) = x :: rest
          rw [h2, ih (some x) f h3 (by simpa using hf)]

theorem prevRefs_none (w : World) (fuel : Nat) : prevRefs w fuel none = [] := by
  cases fuel <;> rfl

theorem prevRefs_of_seg (w : World) (l : List Nat) :
    ∀ (pr : Option Nat) (nx : Option Nat) (fuel : Nat), seg w pr l nx →
      l.length ≤ fuel →
      prevRefs w fuel (lastOr l pr) = l.reverse ++ prevRefs w (fuel - l.length) pr := by
  induction l with
  | nil =>
      intro pr nx fuel h hf
      simp [lastOr]
  | cons x rest ih =>
      intro pr nx fuel h hf
      obtain ⟨h1, h2, h3⟩ := h
      rw [lastOr_cons]
      rw [ih (some x) nx fuel h3 (le_trans (by simp) hf)]
      have hlen : rest.length + 1 ≤ fuel := by simpa using hf
      have hfr : fuel - rest.length = (fuel - rest.length - 1) + 1 := by omega
      rw [hfr]
      show rest.reverse ++ x :: prevRefs w (fuel - rest.length - 1) ((w.tweens x).prev) = _
      rw [h1]
      have hfr2 : fuel - (x :: rest).length = fuel - rest.length - 1 := by
        simp
        omega
      rw [hfr2]
      simp

theorem listOk_of_linkEq {w w' : World} (hl : linkEq w w') {l : List Nat}
    (h : listOk w l) : listOk w' l := by
  obtain ⟨hh, ht, hj⟩ := hl
  obtain ⟨hseg, hhead, htail, hnd, hnm⟩ := h
  refine ⟨seg_congr (fun j _ => hj j) hseg, hh.trans hhead, ht.trans htail, hnd, ?_⟩
  intro j hjl
  obtain ⟨h1, h2⟩ := hnm j hjl
  obtain ⟨hp, hn⟩ := hj j
  exact ⟨hp.trans h1, hn.trans h2⟩

theorem regEq_refl (w : World) : regEq w w :=
  ⟨⟨rfl, rfl, fun _ => ⟨rfl, rfl⟩⟩, fun _ => rfl⟩

theorem regEq_trans {w w' w'' : World} (h1 : regEq w w') (h2 : regEq w' w'') :
    regEq w w'' := by
  obtain ⟨⟨hh1, ht1, hj1⟩, hp1⟩ := h1
  obtain ⟨⟨hh2, ht2, hj2⟩, hp2⟩ := h2
  exact ⟨⟨hh2.trans hh1, ht2.trans ht1,
    fun j => ⟨(hj2 j).1.trans (hj1 j).1, (hj2 j).2.trans (hj1 j).2⟩⟩,
    fun j => (hp2 j).trans (hp1 j)⟩

theorem regEq_pushEvent (w : World) (e : Event) : regEq w (pushEvent w e) :=
  ⟨⟨rfl, rfl, fun _ => ⟨rfl, rfl⟩⟩, fun _ => rfl⟩

theorem regEq_updTween (w : World) (i : Nat) (t : Tween)
    (hp : t.prev = (w.tweens i).prev) (hn : t.next = (w.tweens i).next)
    (hpl : t.playing = (w.tweens i).playing) : regEq w (updTween w i t) := by
  refine ⟨⟨rfl, rfl, fun j => ?_⟩, fun j => ?_⟩
  · by_cases h : j = i
    · subst h
      simp [hp, hn]
    · simp [tweens_updTween, h]
  · by_cases h : j = i
    · subst h
      simp [hpl]
    · simp [tweens_updTween, h]

theorem regEq_of_stateOnlyExt {w w' : World} {i : Nat} (h : StateOnlyExt w w' i) :
    regEq w w' := by
  obtain ⟨⟨st, ht⟩, -, hh, htl⟩ := h
  refine ⟨⟨hh, htl, fun j => ?_⟩, fun j => ?_⟩ <;>
    · rw [ht]
      by_cases hj : j = i <;> simp [hj]

theorem InvN_of_regEq {w w' : World} {n : Nat} (hr : regEq w w') (h : InvN w n) :
    InvN w' n := by
  obtain ⟨l, hok, hmem, hlen⟩ := h
  exact ⟨l, listOk_of_linkEq hr.1 hok,
    fun j => by rw [hr.2 j]; exact hmem j, hlen⟩

theorem InvN_mono {w : World} {n m : Nat} (h : InvN w n) (hnm : n ≤ m) : InvN w m := by
  obtain ⟨l, hok, hmem, hlen⟩ := h
  exact ⟨l, hok, hmem, hlen.trans hnm⟩

/-- Unlinking a registered tween leaves a well-formed registry over the
remaining tweens. -/
theorem removeOp_listOk (w : World) (i : Nat) (l1 l2 : List Nat)
    (h : listOk w (l1 ++ i :: l2)) : listOk (removeOp w i) (l1 ++ l2) := by
  obtain ⟨hseg, hhead, htail, hnd, hnm⟩ := h
  have hnd2 : (i :: (l1 ++ l2)).Nodup := List.nodup_middle.mp hnd
  have hil12 : i ∉ l1 ++ l2 := (List.nodup_cons.mp hnd2).1
  have hil1 : i ∉ l1 := fun hc => hil12 (List.mem_append.mpr (Or.inl hc))
  have hil2 : i ∉ l2 := fun hc => hil12 (List.mem_append.mpr (Or.inr hc))
  have hnd' : (l1 ++ l2).Nodup := (List.nodup_cons.mp hnd2).2
  have hdisj : l1.Disjoint (i :: l2) := (List.nodup_append.mp hnd).2.2
  have hnd1 : l1.Nodup := (List.nodup_append.mp hnd).1
  have hndil2 : (i :: l2).Nodup := (List.nodup_append.mp hnd).2.1
  have hndl2 : l2.Nodup := (List.nodup_cons.mp hndil2).2
  rw [seg_append] at hseg
  obtain ⟨hseg1, hseg2⟩ := hseg
  obtain ⟨hprev_i, hnext_i, hseg2'⟩ := hseg2
  rcases l1 with _ | ⟨x, l1'⟩
  · -- i is the head of the registry
    have hh : w.head = some i := by simpa [headOr] using hhead
    rcases l2 with _ | ⟨n, l2'⟩
    · -- singleton registry
      have hni : (w.tweens i).next = none := by simpa [headOr] using hnext_i
      simp only [removeOp, hh, hni, eq_self_iff_true, if_true]
      refine ⟨trivial, by simp [headOr], by simp [lastOr], by simp, ?_⟩
      intro j _
      by_cases hj : j = i
      · subst hj
        simp
      · simp only [tweens_updTween, if_neg hj]
        exact hnm j (by simp [hj])
    · -- i has a successor: it becomes the head
      have hnn : (w.tweens i).next = some n := by simpa [headOr] using hnext_i
      simp only [removeOp, hh, hnn, eq_self_iff_true, if_true]
      have hinotin : i ∉ (n :: l2') := hil2
      refine ⟨?_, by simp [headOr], ?_, by simpa using hnd', ?_⟩
      · have step1 : seg (updTween w n { w.tweens n with prev := none })
            none (n :: l2') none :=
          seg_set_first_prev w (some i) none n l2' none hseg2' hndl2
        refine seg_congr (fun j hj => ?_) step1
        have hji : j ≠ i := fun hc => hinotin (hc ▸ hj)
        by_cases hjn : j = n
        · subst hjn
          simp [hji]
        · simp [hji, hjn]
      · have : w.tail = lastOr l2' (some n) := by
          rw [htail]
          rfl
        simpa [lastOr] using this
      · intro j hj
        simp only [List.nil_append] at hj
        by_cases hji : j = i
        · subst hji
          simp
        · have hjn : j ≠ n := fun hc => hj (by simp [hc])
          simp only [tweens_updTween, if_neg hji, if_neg hjn]
          exact hnm j (by simp [hji, fun hc => hj hc])
  · -- i is not the head
    have hxi : x ≠ i := fun hc => hil1 (by simp [hc])
    have hh : ¬(w.head = some i) := by
      rw [hhead]
      simp [headOr, hxi]
    obtain ⟨p, hp⟩ := lastOr_some l1' x
    have hpl1 : (lastOr (x :: l1') none : Option Nat) = some p := by
      rw [lastOr_cons]
      exact hp
    have hpi : (w.tweens i).prev = some p := by
      rw [hprev_i]
      exact hpl1
    have hpmem : p ∈ x :: l1' := lastOr_mem _ none p (by simp) hpl1
    have hpne : p ≠ i := fun hc => hil1 (hc ▸ hpmem)
    rcases l2 with _ | ⟨n, l2'⟩
    · -- i is the tail
      have htaili : w.tail = some i := by
        rw [htail, lastOr_append]
        rfl
      simp only [removeOp, if_neg hh, htaili, hpi, eq_self_iff_true, if_true]
      refine ⟨?_, ?_, ?_, by simpa using hnd', ?_⟩
      · have step1 : seg (updTween w p { w.tweens p with next := none })
            none (x :: l1') none :=
          seg_set_last_next w none (x :: l1') p none _ hseg1 hpl1 hnd1
        rw [List.append_nil]
        refine seg_congr (fun j hj => ?_) step1
        have hji : j ≠ i := fun hc => hil1 (hc ▸ hj)
        by_cases hjp : j = p
        · subst hjp
          simp [hji]
        · simp [hji, hjp]
      · simp [hhead, headOr]
      · simp [hpl1]
      · intro j hj
        rw [List.append_nil] at hj
        by_cases hji : j = i
        · subst hji
          simp
        · have hjp : j ≠ p := fun hc => hj (hc ▸ hpmem)
          simp only [tweens_updTween, if_neg hji, if_neg hjp]
          refine hnm j ?_
          intro hc
          rcases List.mem_append.mp hc with hc1 | hc2
          · exact hj hc1
          · simp only [List.mem_singleton] at hc2
            exact hji hc2
    · -- i is in the middle
      have hni : (w.tweens i).next = some n := by simpa [headOr] using hnext_i
      have htailne : ¬(w.tail = some i) := by
        rw [htail, lastOr_append, lastOr_cons, lastOr_cons]
        intro hc
        rcases hl2' : l2' with _ | ⟨y, l2''⟩
        · rw [hl2'] at hc
          simp only [lastOr] at hc
          exact hil2 (by simp [← Option.some.inj hc])
        · rw [hl2'] at hc
          have hmem := lastOr_mem (y :: l2'') (some n) i (by simp) hc
          exact hil2 (by simp [hl2', hmem])
      have hnnel1 : n ∉ x :: l1' := fun hc => hdisj hc (by simp)
      have hpnel2 : p ∉ i :: n :: l2' := fun hc => hdisj hpmem hc
      have hnd2' : (n :: l2').Nodup := hndl2
      simp only [removeOp, if_neg hh, if_neg htailne, hpi, hni]
      refine ⟨?_, ?_, ?_, by simpa using hnd', ?_⟩
      · rw [seg_append]
        constructor
        · have step1 : seg (updTween w p { w.tweens p with next := some n })
              none (x :: l1') (some n) :=
            seg_set_last_next w none (x :: l1') p (some n) _ hseg1 hpl1 hnd1
          refine seg_congr (fun j hj => ?_) step1
          have hji : j ≠ i := fun hc => hil1 (hc ▸ hj)
          have hjn : j ≠ n := fun hc => hnnel1 (hc ▸ hj)
          simp [hji, hjn]
        · have base : seg (updTween w p { w.tweens p with next := some n })
              (some i) (n :: l2') none := by
            refine seg_congr (fun j hj => ?_) hseg2'
            have hjp : j ≠ p := fun hc => hpnel2 (by rw [← hc]; exact List.mem_cons_of_mem i hj)
            simp [hjp]
          have step2 := seg_set_first_prev
            (updTween w p { w.tweens p with next := some n }) (some i) (some p)
            n l2' none base hnd2'
          rw [show (lastOr (x :: l1') none : Option Nat) = some p from hpl1]
          refine seg_congr (fun j hj => ?_) step2
          have hji : j ≠ i := fun hc => hil2 (hc ▸ hj)
          simp [hji]
      · simp [hhead, headOr]
      · simp [htail, lastOr_append, lastOr_cons]
      · intro j hj
        by_cases hji : j = i
        · subst hji
          simp
        · have hjp : j ≠ p := fun hc => hj (List.mem_append.mpr (Or.inl (hc ▸ hpmem)))
          have hjn : j ≠ n := fun hc => hj (List.mem_append.mpr (Or.inr (by simp [hc])))
          simp only [tweens_updTween, if_neg hji, if_neg hjn, if_neg hjp]
          refine hnm j ?_
          intro hc
          rcases List.mem_append.mp hc with hc1 | hc2
          · exact hj (List.mem_append.mpr (Or.inl hc1))
          · rcases List.mem_cons.mp hc2 with hc3 | hc4
            · exact hji hc3
            · exact hj (List.mem_append.mpr (Or.inr hc4))

/-- Registry append: inserting an unlinked, absent tween at the tail extends
the registry list by exactly that tween. -/
theorem insertReg_listOk (w : World) (i : Nat) (l : List Nat)
    (h : listOk w l) (hil : i ∉ l) : listOk (insertReg w i) (l ++ [i]) := by
  obtain ⟨hseg, hhead, htail, hnd, hnm⟩ := h
  rcases l with _ | ⟨x, rest⟩
  · have hh : w.head = none := by simpa [headOr] using hhead
    simp only [insertReg, if_pos hh, List.nil_append]
    refine ⟨⟨(hnm i (by simp)).1, by simp [(hnm i (by simp)).2, headOr], trivial⟩,
      rfl, rfl, by simp, ?_⟩
    intro j hj
    exact hnm j (by simp)
  · have hhne : ¬(w.head = none) := by rw [hhead]; simp [headOr]
    obtain ⟨tl, htl⟩ : ∃ tl, w.tail = some tl := by
      rw [htail, lastOr_cons]; exact lastOr_some rest x
    have hlast : lastOr (x :: rest) none = some tl := htail.symm.trans htl
    have htlmem : tl ∈ x :: rest := lastOr_mem _ none tl (by simp) hlast
    have htli : tl ≠ i := fun hc => hil (hc ▸ htlmem)
    have hw : insertReg w i =
        { updTween (updTween w i { w.tweens i with prev := some tl }) tl
            { (updTween w i { w.tweens i with prev := some tl }).tweens tl with
                next := some i } with
          tail := some i } := by
      simp only [insertReg, if_neg hhne, htl]
    rw [hw]
    refine ⟨?_, ?_, ?_, ?_, ?_⟩
    · rw [seg_append]
      refine ⟨?_, ?_⟩
      · have step1 : seg (updTween w tl { w.tweens tl with next := some i })
            none (x :: rest) (some i) :=
          seg_set_last_next w none (x :: rest) tl (some i) none hseg hlast hnd
        refine seg_congr (fun j hj => ?_) step1
        have hji : j ≠ i := fun hc => hil (hc ▸ hj)
        by_cases hjtl : j = tl <;> simp [hjtl, hji, htli]
      · rw [hlast]
        refine ⟨?_, ?_, trivial⟩
        · simp [Ne.symm htli]
        · simp [Ne.symm htli, (hnm i hil).2, headOr]
    · simp [hhead, headOr_append, headOr]
    · simp [lastOr_append, lastOr]
    · refine List.Nodup.append hnd (by simp) ?_
      intro a ha hb
      exact hil ((List.mem_singleton.mp hb) ▸ ha)
    · intro j hj
      have hji : j ≠ i := fun hc => hj (by simp [hc])
      have hjl : j ∉ x :: rest := fun hc => hj (List.mem_append.mpr (Or.inl hc))
      have hjtl : j ≠ tl := fun hc => hjl (hc ▸ htlmem)
      simpa [tweens_updTween, hji, hjtl] using hnm j hjl

/-- `pause` on a playing tween unlinks it; the registry invariant is
preserved with the same bound. -/
theorem pauseOp_invN (w : World) (i : Nat) (tNow : JsNum) (n : Nat)
    (h : InvN w n) : InvN (pauseOp w i tNow) n := by
  by_cases hpl : (w.tweens i).playing = true
  · obtain ⟨l, hok, hmem, hlen⟩ := h
    have hil : i ∈ l := (hmem i).mpr hpl
    obtain ⟨l1, l2, hl⟩ := List.append_of_mem hil
    subst hl
    have hnd : (l1 ++ i :: l2).Nodup := hok.2.2.2.1
    have hni : i ∉ l1 ++ l2 := (List.nodup_cons.mp (List.nodup_middle.mp hnd)).1
    have hlkA : linkEq w (updTween w i
        { w.tweens i with pausedAt := some tNow, playing := false }) :=
      ⟨rfl, rfl, fun j => by by_cases hj : j = i <;> simp [tweens_updTween, hj]⟩
    have hokA := listOk_of_linkEq hlkA hok
    have hokR := removeOp_listOk _ i l1 l2 hokA
    have hred : pauseOp w i tNow = removeOp (updTween w i
        { w.tweens i with pausedAt := some tNow, playing := false }) i := by
      simp [pauseOp, hpl]
    rw [hred]
    refine ⟨l1 ++ l2, hokR, ?_, le_trans (by simp) hlen⟩
    intro j
    obtain ⟨pr, nx, hrm⟩ := removeOp_tweens_links _ i j
    rw [hrm]
    by_cases hj : j = i
    · subst hj
      simp [tweens_updTween, hni]
    · have hmm : j ∈ l1 ++ l2 ↔ j ∈ l1 ++ i :: l2 := by simp [hj]
      rw [hmm, hmem j]
      simp [tweens_updTween, hj]
  · have hf : (w.tweens i).playing = false := by
      revert hpl; cases (w.tweens i).playing <;> simp
    have hred : pauseOp w i tNow = w := by simp [pauseOp, hf]
    rw [hred]
    exact h

/-- `stop` on any tween preserves the registry invariant with the same
bound: on a playing tween it unlinks it, otherwise it is a no-op. -/
theorem stopOp_invN (w : World) (i : Nat) (g : Bool) (n : Nat)
    (h : InvN w n) : InvN (stopOp w i g) n := by
  by_cases hpl : (w.tweens i).playing = true
  · obtain ⟨l, hok, hmem, hlen⟩ := h
    have hil : i ∈ l := (hmem i).mpr hpl
    obtain ⟨l1, l2, hl⟩ := List.append_of_mem hil
    subst hl
    have hnd : (l1 ++ i :: l2).Nodup := hok.2.2.2.1
    have hni : i ∉ l1 ++ l2 := (List.nodup_cons.mp (List.nodup_middle.mp hnd)).1
    have hlkA : linkEq w (updTween w i { w.tweens i with playing := false }) :=
      ⟨rfl, rfl, fun j => by by_cases hj : j = i <;> simp [tweens_updTween, hj]⟩
    have hokA := listOk_of_linkEq hlkA hok
    have hokR := removeOp_listOk _ i l1 l2 hokA
    obtain ⟨st, new, htw, hhd, htl, hev, hc1, hc2, hc3⟩ := stopOp_shape_of_playing w i g hpl
    have hlk : linkEq (removeOp (updTween w i { w.tweens i with playing := false }) i)
        (stopOp w i g) := by
      refine ⟨hhd, htl, fun j => ?_⟩
      rw [htw]
      by_cases hj : j = i <;> simp [hj]
    refine ⟨l1 ++ l2, listOk_of_linkEq hlk hokR, ?_, le_trans (by simp) hlen⟩
    intro j
    simp only [htw]
    by_cases hj : j = i
    · subst hj
      simp [playing_removeOp, tweens_updTween, hni]
    · have hmm : j ∈ l1 ++ l2 ↔ j ∈ l1 ++ i :: l2 := by simp [hj]
      rw [hmm, hmem j]
      simp [hj, playing_removeOp, tweens_updTween]
  · have hf : (w.tweens i).playing = false := by
      revert hpl; cases (w.tweens i).playing <;> simp
    have hred : stopOp w i g = w := by simp [stopOp, hf]
    rw [hred]
    exact h

/-- `cancel` preserves the registry invariant with the same bound: its
pre-stage only touches the continuations and the event log, then it stops. -/
theorem cancelOp_invN (w : World) (i : Nat) (g : Bool) (n : Nat)
    (h : InvN w n) : InvN (cancelOp w i g) n := by
  by_cases hpl : (w.tweens i).playing = true
  · have hnf : ¬((w.tweens i).playing = false) := by simp [hpl]
    simp only [cancelOp]
    rw [if_neg hnf]
    refine stopOp_invN _ i g n ?_
    refine InvN_of_regEq (regEq_updTween _ _ _ rfl rfl rfl) ?_
    split_ifs with hr
    · exact InvN_of_regEq (regEq_pushEvent _ _) h
    · exact h
  · have hf : (w.tweens i).playing = false := by
      revert hpl; cases (w.tweens i).playing <;> simp
    have hred : cancelOp w i g = w := by simp [cancelOp, hf]
    rw [hred]
    exact h

/-- Marking a non-playing tween as playing (with its links untouched) and
appending it to the registry preserves the invariant, with the bound grown
by one. -/
theorem insertPlay_invN (w : World) (i : Nat) (t2 : Tween) (n : Nat)
    (hp : t2.prev = (w.tweens i).prev) (hn : t2.next = (w.tweens i).next)
    (hpl2 : t2.playing = true) (hnpl : (w.tweens i).playing = false) (h : InvN w n) :
    InvN (insertReg (updTween w i t2) i) (n + 1) := by
  obtain ⟨l, hok, hmem, hlen⟩ := h
  have hil : i ∉ l := fun hc => by
    have hc2 := (hmem i).mp hc
    rw [hnpl] at hc2
    exact Bool.false_ne_true hc2
  have hlkU : linkEq w (updTween w i t2) := by
    refine ⟨rfl, rfl, fun j => ?_⟩
    by_cases hj : j = i
    · subst hj
      simp [hp, hn]
    · simp [tweens_updTween, hj]
  have hokU := listOk_of_linkEq hlkU hok
  have hokI := insertReg_listOk _ i l hokU hil
  refine ⟨l ++ [i], hokI, ?_, by simpa using Nat.succ_le_succ hlen⟩
  intro j
  obtain ⟨pr, nx, hins⟩ := insertReg_tweens_links (updTween w i t2) i j
  rw [hins]
  by_cases hj : j = i
  · subst hj
    simp [tweens_updTween, hpl2]
  · simp [tweens_updTween, hj, hmem j]

/-- The resume body preserves the registry invariant, with the bound grown
by one (it links in at most one tween). -/
theorem resumeCore_invN (w : World) (i : Nat) (ct : JsNum) (n : Nat)
    (h : InvN w n) : InvN (resumeCore w i ct) (n + 1) := by
  by_cases hpl : (w.tweens i).playing = true
  · have hred : resumeCore w i ct = w := by simp [resumeCore, hpl]
    rw [hred]
    exact InvN_mono h (Nat.le_succ n)
  · have hnpl : (w.tweens i).playing = false := by
      revert hpl; cases (w.tweens i).playing <;> simp
    simp only [resumeCore]
    rw [if_neg hpl]
    refine insertPlay_invN w i _ n ?_ ?_ rfl hnpl h
    · split
      · split_ifs <;> rfl
      · rfl
    · split
      · split_ifs <;> rfl
      · rfl

/-- `tween()` preserves the registry invariant, with the bound grown by
one. -/
theorem tweenOp_invN (w : World) (i : Nat) (tNow : JsNum) (n : Nat)
    (h : InvN w n) : InvN (tweenOp w i tNow) (n + 1) := by
  simp only [tweenOp]
  refine resumeCore_invN _ i tNow n ?_
  split_ifs
  · exact InvN_of_regEq (regEq_pushEvent _ _) (InvN_of_regEq (regEq_pushEvent _ _)
      (InvN_of_regEq (regEq_updTween _ _ _ rfl rfl rfl) (stopOp_invN w i false n h)))
  · exact InvN_of_regEq (regEq_pushEvent _ _)
      (InvN_of_regEq (regEq_updTween _ _ _ rfl rfl rfl) (stopOp_invN w i false n h))
  · exact InvN_of_regEq (regEq_pushEvent _ _) (InvN_of_regEq (regEq_pushEvent _ _)
      (InvN_of_regEq (regEq_updTween _ _ _ rfl rfl rfl) h))
  · exact InvN_of_regEq (regEq_pushEvent _ _)
      (InvN_of_regEq (regEq_updTween _ _ _ rfl rfl rfl) h)

/-- `_resume` preserves the registry invariant, with the bound grown by
one. -/
theorem resumeOp_invN (w : World) (i : Nat) (tNow : JsNum) (n : Nat)
    (h : InvN w n) : InvN (resumeOp w i tNow) (n + 1) := by
  simp only [resumeOp]
  split_ifs with ht
  · exact tweenOp_invN w i tNow n h
  · exact resumeCore_invN w i tNow n h

/-- Every lifecycle call preserves the registry invariant, with the bound
grown by one. -/
theorem applyOp_invN (w : World) (o : Op) (n : Nat) (h : InvN w n) :
    InvN (applyOp w o) (n + 1) := by
  cases o with
  | play i tNow => exact tweenOp_invN w i tNow n h
  | pause i tNow => exact InvN_mono (pauseOp_invN w i tNow n h) (Nat.le_succ n)
  | resume i tNow => exact resumeOp_invN w i tNow n h
  | stop i g => exact InvN_mono (stopOp_invN w i g n h) (Nat.le_succ n)
  | cancel i g => exact InvN_mono (cancelOp_invN w i g n h) (Nat.le_succ n)

/-- Any sequence of lifecycle calls preserves the registry invariant, the
bound growing by the number of calls. -/
theorem applyOps_invN (w : World) (ops : List Op) (n : Nat) (h : InvN w n) :
    InvN (applyOps w ops) (n + ops.length) := by
  induction ops generalizing w n with
  | nil => simpa using h
  | cons o ops ih =>
      have h1 := ih (applyOp w o) (n + 1) (applyOp_invN w o n h)
      exact InvN_mono h1 (by simp only [List.length_cons]; omega)

/-- The fresh module state satisfies the registry invariant with the empty
registry. -/
theorem initWorld_invN : InvN initWorld 0 := by
  refine ⟨[], ⟨trivial, rfl, rfl, List.nodup_nil, fun j _ => ⟨rfl, rfl⟩⟩,
    fun j => ?_, le_refl 0⟩
  simp [initWorld]

/-- C4: after any finite sequence of play/pause/resume/stop/cancel calls on
any tweens, starting from the fresh module state, there is one list of
tweens that the forward traversal from `listHead` (following `next`
pointers) produces, that the backward traversal from `listTail` (following
`prev` pointers) produces reversed, and whose members are exactly the
tweens whose `isPlaying` flag is true — so a tween is reachable from the
registry head iff it is playing, and the two traversals visit the same
tweens, namely the playing ones. -/
theorem registry_traversals_playing (ops : List Op) :
    ∃ l : List Nat,
      nextRefs (applyOps initWorld ops) ops.length (applyOps initWorld ops).head = l ∧
      prevRefs (applyOps initWorld ops) ops.length (applyOps initWorld ops).tail =
        l.reverse ∧
      (∀ j, j ∈ l ↔ ((applyOps initWorld ops).tweens j).playing = true) := by
  obtain ⟨l, ⟨hseg, hhead, htail, hnd, hnm⟩, hmem, hlen⟩ :=
    applyOps_invN initWorld ops 0 initWorld_invN
  have hlen2 : l.length ≤ ops.length := by simpa using hlen
  refine ⟨l, ?_, ?_, hmem⟩
  · rw [hhead]
    exact nextRefs_of_seg _ l none ops.length hseg hlen2
  · rw [htail, prevRefs_of_seg _ l none none ops.length hseg hlen2, prevRefs_none]
    simp

/-- C10: `get()` hands back a freshly allocated reference — distinct from
the tween's internal `_currentState` reference — whose object holds the
same contents (a shallow copy); the internal state object is left
unchanged by the call, and any later write through the returned reference
leaves the internal state object unchanged. -/
theorem get_returns_fresh_copy (h : Heap) (t : TweenRef)
    (halloc : t.curRef < h.nextRef) :
    (getOp h t).2 ≠ t.curRef ∧
    (getOp h t).1.objs t.curRef = h.objs t.curRef ∧
    (getOp h t).1.objs (getOp h t).2 = h.objs t.curRef ∧
    ∀ v, (writeObj (getOp h t).1 (getOp h t).2 v).objs t.curRef = h.objs t.curRef := by
  have hne : t.curRef ≠ h.nextRef := Nat.ne_of_lt halloc
  refine ⟨?_, ?_, ?_, ?_⟩
  · simp [getOp, allocObj]
    exact fun hc => hne hc.symm
  · simp [getOp, allocObj, hne]
  · simp [getOp, allocObj]
  · intro v
    simp [getOp, allocObj, writeObj, hne]

theorem get_returns_fresh_copy_witness :
    c10Tween.curRef < c10Heap.nextRef ∧
    ((getOp c10Heap c10Tween).2 ≠ c10Tween.curRef ∧
     (getOp c10Heap c10Tween).1.objs c10Tween.curRef = c10Heap.objs c10Tween.curRef ∧
     (getOp c10Heap c10Tween).1.objs (getOp c10Heap c10Tween).2 =
       c10Heap.objs c10Tween.curRef ∧
     ∀ v, (writeObj (getOp c10Heap c10Tween).1 (getOp c10Heap c10Tween).2 v).objs
       c10Tween.curRef = c10Heap.objs c10Tween.curRef) :=
  ⟨by decide, get_returns_fresh_copy c10Heap c10Tween (by decide)⟩

end Shifty
